import Mathlib

/-
Verification of the core logic of `UberonTerminologyImporter.py`
(class `UberonTerminologyImporterLogic`): the JSON flattening
(`flatListFromDict`), flat-list search (`findValueInFlatList`), path
materialization (`getJsonElementFromFlatElement`), containment-children
computation (`getChildrenForNode`) and the `process` orchestration.

Python values reachable from `json.loads` are modelled by the inductive
type `PVal` (strings, integers, booleans, None, lists, dicts with string
keys in insertion order).  JSON floats are outside the model; none of the
verified properties concern numeric leaves other than integers.
Raised Python exceptions are modelled with `Except PyErr`; the unbounded
recursion of `getChildrenForNode(..., recursive=True)` is modelled with an
explicit recursion-depth budget (`fuel`), where a result `none` for every
budget corresponds to non-termination of the source (RecursionError).
-/

namespace UberonImporter

/-- A Python/JSON value as produced by `json.loads`: str, int, bool, None,
list, or dict with string keys kept in insertion order. -/
inductive PVal where
  | pstr : String → PVal
  | pint : Int → PVal
  | pbool : Bool → PVal
  | pnull : PVal
  | plist : List PVal → PVal
  | pdict : List (String × PVal) → PVal

/-- Whether a value is a JSON object (Python dict). -/
def PVal.isDict : PVal → Bool
  | .pdict _ => true
  | _ => false

/-- Python exceptions raised by the modelled code paths. -/
inductive PyErr where
  | indexError : PyErr
  | keyError : PyErr
  | typeError : PyErr
  | runtimeNotFound : PyErr
deriving DecidableEq

mutual
/-- Python `==` on JSON values: numbers and booleans compare across type
(`1 == True`), lists compare elementwise.  Dicts are compared key by key in
insertion order; Python's dict equality ignores key order, but `json.loads`
fixes one key order per document and no verified property compares two
reordered objects, so the order-sensitive comparison is used. -/
def pyEq : PVal → PVal → Bool
  | .pstr a, .pstr b => a == b
  | .pint a, .pint b => a == b
  | .pint a, .pbool b => a == (if b then (1 : Int) else 0)
  | .pbool a, .pint b => (if a then (1 : Int) else 0) == b
  | .pbool a, .pbool b => a == b
  | .pnull, .pnull => true
  | .plist xs, .plist ys => pyEqL xs ys
  | .pdict xs, .pdict ys => pyEqD xs ys
  | _, _ => false

/-- Elementwise Python `==` on lists. -/
def pyEqL : List PVal → List PVal → Bool
  | [], [] => true
  | x :: xs, y :: ys => pyEq x y && pyEqL xs ys
  | _, _ => false

/-- Entrywise Python `==` on dict items (see `pyEq` for the key-order
convention). -/
def pyEqD : List (String × PVal) → List (String × PVal) → Bool
  | [], [] => true
  | (k, v) :: xs, (k2, v2) :: ys => k == k2 && pyEq v v2 && pyEqD xs ys
  | _, _ => false
end

/-- Lookup of a string key in a dict's item list (first occurrence; items
coming from `json.loads` have unique keys). -/
def lookupStr (k : String) : List (String × PVal) → Option PVal
  | [] => none
  | (k2, v) :: rest => if k2 == k then some v else lookupStr k rest

/-- Python list indexing `xs[i]` with negative-index wrapping;
out-of-range raises IndexError. -/
def pyListGet (xs : List PVal) (i : Int) : Except PyErr PVal :=
  let j : Int := if i < 0 then i + xs.length else i
  if j < 0 then .error .indexError
  else
    match xs.get? j.toNat with
    | some v => .ok v
    | none => .error .indexError

/-- Python string indexing `s[i]` (yields a one-character string);
out-of-range raises IndexError. -/
def pyStrGet (s : String) (i : Int) : Except PyErr PVal :=
  let chars := s.toList
  let j : Int := if i < 0 then i + chars.length else i
  if j < 0 then .error .indexError
  else
    match chars.get? j.toNat with
    | some c => .ok (.pstr (String.mk [c]))
    | none => .error .indexError

/-- Python subscription `container[key]` as it can occur in the importer:
dict lookup by (necessarily string) key raising KeyError when absent
(non-string hashable keys never match a JSON object; unhashable keys raise
TypeError), list/str indexing by int or bool, and TypeError everywhere
else. -/
def pyIndex : PVal → PVal → Except PyErr PVal
  | .pdict items, .pstr s =>
    match lookupStr s items with
    | some v => .ok v
    | none => .error .keyError
  | .pdict _, .plist _ => .error .typeError
  | .pdict _, .pdict _ => .error .typeError
  | .pdict _, _ => .error .keyError
  | .plist xs, .pint i => pyListGet xs i
  | .plist xs, .pbool b => pyListGet xs (if b then 1 else 0)
  | .plist _, _ => .error .typeError
  | .pstr s, .pint i => pyStrGet s i
  | .pstr s, .pbool b => pyStrGet s (if b then 1 else 0)
  | .pstr _, _ => .error .typeError
  | _, _ => .error .typeError

/-- The unwrap step `if isinstance(elem, list): elem = elem[0]` of
`getJsonElementFromFlatElement`; `[][0]` raises IndexError. -/
def unwrapSeg : PVal → Except PyErr PVal
  | .plist [] => .error .indexError
  | .plist (x :: _) => .ok x
  | v => .ok v

/-- The loop of `getJsonElementFromFlatElement`: walk the flat element's
segments from `currentJson`, unwrapping list-wrapped indices, returning
`currentJson` once `currentDepth == depth` (the unwrap of the current
segment happens before the depth test, exactly as in the source). -/
def getJsonWalk : List PVal → Nat → Nat → PVal → Except PyErr PVal
  | [], _, _, currentJson => .ok currentJson
  | e :: rest, depth, currentDepth, currentJson =>
    match unwrapSeg e with
    | .error err => .error err
    | .ok e2 =>
      if currentDepth = depth then .ok currentJson
      else
        match pyIndex currentJson e2 with
        | .error err => .error err
        | .ok nxt => getJsonWalk rest depth (currentDepth + 1) nxt

/-- `getJsonElementFromFlatElement(flatElement, depth)`.  When no JSON
document is loaded the source logs an error and returns Python `None`,
modelled as `.ok none`; otherwise it walks the path and returns the reached
sub-value (`.ok (some v)`), propagating any raised exception. -/
def getJsonElementFromFlatElement (loadedJson : Option PVal) (flatElement : List PVal)
    (depth : Nat) : Except PyErr (Option PVal) :=
  match loadedJson with
  | none => .ok none
  | some doc =>
    match getJsonWalk flatElement depth 0 doc with
    | .error err => .error err
    | .ok v => .ok (some v)

/-- Python negative indexing `elem[-k]` for `k ≥ 1` (IndexError when the
list is shorter than `k`). -/
def pyNegGet (elem : List PVal) (k : Nat) : Except PyErr PVal :=
  if k ≤ elem.length then
    match elem.get? (elem.length - k) with
    | some v => .ok v
    | none => .error .indexError
  else .error .indexError

/-- `findValueInFlatList(value, tag)`: first flat element whose last entry
equals `value` and, when `tag` is given, whose second-to-last entry equals
`tag`; raises `RuntimeError` (modelled `.runtimeNotFound`) when the scan
finds nothing. -/
def findValueInFlatList (flatList : List (List PVal)) (value : PVal) (tag : Option PVal) :
    Except PyErr (List PVal) :=
  match flatList with
  | [] => .error .runtimeNotFound
  | elem :: rest =>
    match pyNegGet elem 1 with
    | .error err => .error err
    | .ok lastV =>
      if pyEq lastV value then
        match tag with
        | none => .ok elem
        | some t =>
          match pyNegGet elem 2 with
          | .error err => .error err
          | .ok sndLastV =>
            if pyEq sndLastV t then .ok elem
            else findValueInFlatList rest value tag
      else findValueInFlatList rest value tag

mutual
/-- `flatListFromDict(dictionary, previous)`: flatten a JSON value into a
list of paths.  A dict recurses into each value; a list value of a dict key
recurses into each element with a `[index]` segment; every other value is
emitted as `previous + [key, value]`, and a non-dict argument is emitted
whole as `previous + [dictionary]`. -/
def flatListFromDict : PVal → List PVal → List (List PVal)
  | .pdict items, previous => flatDictItems items previous
  | d, previous => [previous ++ [d]]

/-- The `for key, value in dictionary.items()` loop of `flatListFromDict`. -/
def flatDictItems : List (String × PVal) → List PVal → List (List PVal)
  | [], _ => []
  | (key, .pdict inner) :: rest, previous =>
    flatDictItems inner (previous ++ [.pstr key]) ++ flatDictItems rest previous
  | (key, .plist elems) :: rest, previous =>
    flatListElems elems key 0 previous ++ flatDictItems rest previous
  | (key, value) :: rest, previous =>
    (previous ++ [.pstr key, value]) :: flatDictItems rest previous

/-- The `for k, v in enumerate(value)` loop of `flatListFromDict`
(`k` is the running index). -/
def flatListElems : List PVal → String → Nat → List PVal → List (List PVal)
  | [], _, _, _ => []
  | v :: rest, key, k, previous =>
    flatListFromDict v (previous ++ [.pstr key, .plist [.pint (k : Int)]]) ++
      flatListElems rest key (k + 1) previous
end

/-- `self.containmentPredicateIDs`: the IsA and PartOf predicates. -/
def containmentPredicateIDs : List String :=
  ["is_a", "http://purl.obolibrary.org/obo/BFO_0000050"]

/-- Python set membership `v in acc` (via `==`). -/
def pyMem (v : PVal) (acc : List PVal) : Bool :=
  acc.any (fun x => pyEq v x)

/-- Python `set.add`: sets are modelled as duplicate-free lists in
insertion order. -/
def pyAdd (acc : List PVal) (v : PVal) : List PVal :=
  if pyMem v acc then acc else acc ++ [v]

/-- Python `set.union` on the duplicate-free list model. -/
def pyUnion (a b : List PVal) : List PVal :=
  a ++ b.filter (fun x => !pyMem x a)

/-- The scanning loop of `getChildrenForNode`: for every flat element
whose entry 2 equals `edges`, entry 4 equals `obj` and entry 5 equals
`uberonNodeID`, materialize the edge at depth 4 and collect the edge
subject when the edge predicate is a containment predicate.  The element
subscriptions raise IndexError on too-short elements, short-circuiting
left to right as in the source. -/
def scanDirect (loadedJson : Option PVal) (uberonNodeID : PVal) :
    List (List PVal) → List PVal → Except PyErr (List PVal)
  | [], acc => .ok acc
  | elem :: rest, acc =>
    match elem.get? 2 with
    | none => .error .indexError
    | some e2 =>
      if pyEq e2 (.pstr "edges") then
        match elem.get? 4 with
        | none => .error .indexError
        | some e4 =>
          if pyEq e4 (.pstr "obj") then
            match elem.get? 5 with
            | none => .error .indexError
            | some e5 =>
              if pyEq e5 uberonNodeID then
                match getJsonElementFromFlatElement loadedJson elem 4 with
                | .error err => .error err
                | .ok none => .error .typeError
                | .ok (some edge) =>
                  match pyIndex edge (.pstr "pred") with
                  | .error err => .error err
                  | .ok predV =>
                    if containmentPredicateIDs.any (fun p => pyEq predV (.pstr p)) then
                      match pyIndex edge (.pstr "sub") with
                      | .error err => .error err
                      | .ok subV => scanDirect loadedJson uberonNodeID rest (pyAdd acc subV)
                    else scanDirect loadedJson uberonNodeID rest acc
              else scanDirect loadedJson uberonNodeID rest acc
          else scanDirect loadedJson uberonNodeID rest acc
      else scanDirect loadedJson uberonNodeID rest acc

/-- `getChildrenForNode(uberonNodeID)` with `recursive=False`: the direct
containment children. -/
def getChildrenDirect (loadedJson : Option PVal) (flatList : List (List PVal))
    (uberonNodeID : PVal) : Except PyErr (List PVal) :=
  scanDirect loadedJson uberonNodeID flatList []

/-- The `for childNodeID in directChildNodeIDs` loop of the recursive case
of `getChildrenForNode`: skip a child already accumulated, otherwise union
in its recursively computed children (`rec`). -/
def recChildLoop (rec : PVal → Option (Except PyErr (List PVal))) :
    List PVal → List PVal → Option (Except PyErr (List PVal))
  | [], acc => some (.ok acc)
  | c :: rest, acc =>
    if pyMem c acc then recChildLoop rec rest acc
    else
      match rec c with
      | none => none
      | some (.error err) => some (.error err)
      | some (.ok cs) => recChildLoop rec rest (pyUnion acc cs)

/-- `getChildrenForNode(uberonNodeID, recursive=True)`, with an explicit
recursion-depth budget: `none` means the budget was exhausted, and a `none`
for every budget means the source recursion does not terminate. -/
def getChildrenRec : Nat → Option PVal → List (List PVal) → PVal →
    Option (Except PyErr (List PVal))
  | 0, _, _, _ => none
  | fuel + 1, loadedJson, flatList, uberonNodeID =>
    match getChildrenDirect loadedJson flatList uberonNodeID with
    | .error err => some (.error err)
    | .ok direct =>
      match recChildLoop (fun c => getChildrenRec fuel loadedJson flatList c) direct [] with
      | none => none
      | some (.error err) => some (.error err)
      | some (.ok allChildren) => some (.ok (pyUnion allChildren direct))

/-- `getChildrenForNode(uberonNodeID, recursive)`. -/
def getChildrenForNode (fuel : Nat) (loadedJson : Option PVal)
    (flatList : List (List PVal)) (uberonNodeID : PVal) (recursive : Bool) :
    Option (Except PyErr (List PVal)) :=
  if recursive then getChildrenRec fuel loadedJson flatList uberonNodeID
  else
    match getChildrenDirect loadedJson flatList uberonNodeID with
    | .error err => some (.error err)
    | .ok direct => some (.ok direct)

/-- `rootNodeLabel` in `process`. -/
def rootNodeLabel : String := "subdivision of skeleton"

/-- The `@schema` constant written by `process`. -/
def schemaURI : String :=
  "https://raw.githubusercontent.com/qiicr/dcmqi/master/doc/schemas/segment-context-schema.json#"

/-- One `newType` record built in `process`. -/
def mkType (label typeNodeID : PVal) : PVal :=
  .pdict [("CodeMeaning", label), ("CodingSchemeDesignator", .pstr "Uberon"),
          ("CodeValue", typeNodeID),
          ("recommendedDisplayRGBValue", .plist [.pint 128, .pint 128, .pint 128])]

/-- One `newCategory` record built in `process`. -/
def mkCategory (label childNodeID : PVal) (types : List PVal) : PVal :=
  .pdict [("CodeMeaning", label), ("CodingSchemeDesignator", .pstr "Uberon"),
          ("CodeValue", childNodeID), ("showAnatomy", .pstr "false"),
          ("Type", .plist types)]

/-- The assembled `terminologyJson` document of `process`. -/
def mkOutput (categories : List PVal) : PVal :=
  .pdict [("SegmentationCategoryTypeContextName", .pstr rootNodeLabel),
          ("@schema", .pstr schemaURI),
          ("SegmentationCodes", .pdict [("Category", .plist categories)])]

/-- The `for typeNodeID in typeNodeIDsInCategory` loop of `process`:
find each type node by id, materialize it at depth 4, read its label and
append the type record. -/
def buildTypeList (loadedJson : Option PVal) (flatList : List (List PVal)) :
    List PVal → List PVal → Except PyErr (List PVal)
  | [], acc => .ok acc
  | typeNodeID :: rest, acc =>
    match findValueInFlatList flatList typeNodeID (some (.pstr "id")) with
    | .error err => .error err
    | .ok typeListItem =>
      match getJsonElementFromFlatElement loadedJson typeListItem 4 with
      | .error err => .error err
      | .ok none => .error .typeError
      | .ok (some typeJsonElement) =>
        match pyIndex typeJsonElement (.pstr "lbl") with
        | .error err => .error err
        | .ok typeLabel =>
          buildTypeList loadedJson flatList rest (acc ++ [mkType typeLabel typeNodeID])

/-- The `for childNodeID in childNodeIDs` loop of `process`: look the child
up by id, read its label, compute its recursive children; skip the child
when that set is empty, otherwise append a category with its type list. -/
def buildCategories (fuel : Nat) (loadedJson : Option PVal) (flatList : List (List PVal)) :
    List PVal → List PVal → Option (Except PyErr (List PVal))
  | [], acc => some (.ok acc)
  | childNodeID :: rest, acc =>
    match findValueInFlatList flatList childNodeID (some (.pstr "id")) with
    | .error err => some (.error err)
    | .ok childListItem =>
      match getJsonElementFromFlatElement loadedJson childListItem 4 with
      | .error err => some (.error err)
      | .ok none => some (.error .typeError)
      | .ok (some nodeJsonElement) =>
        match pyIndex nodeJsonElement (.pstr "lbl") with
        | .error err => some (.error err)
        | .ok childLabel =>
          match getChildrenForNode fuel loadedJson flatList childNodeID true with
          | none => none
          | some (.error err) => some (.error err)
          | some (.ok typeNodeIDsInCategory) =>
            if typeNodeIDsInCategory.length = 0 then
              buildCategories fuel loadedJson flatList rest acc
            else
              match buildTypeList loadedJson flatList typeNodeIDsInCategory [] with
              | .error err => some (.error err)
              | .ok newTypes =>
                buildCategories fuel loadedJson flatList rest
                  (acc ++ [mkCategory childLabel childNodeID newTypes])

/-- The body of `process` after the input document is parsed and flattened:
find the root node by label, materialize it, read its id, collect its
direct children and build the category list; the final `.ok` value is the
document written to the output file (a raised error reaches the caller
before anything is written). -/
def processBody (fuel : Nat) (loadedJson : Option PVal) (flatList : List (List PVal)) :
    Option (Except PyErr PVal) :=
  match findValueInFlatList flatList (.pstr rootNodeLabel) (some (.pstr "lbl")) with
  | .error err => some (.error err)
  | .ok rootNodeListItem =>
    match getJsonElementFromFlatElement loadedJson rootNodeListItem 4 with
    | .error err => some (.error err)
    | .ok none => some (.error .typeError)
    | .ok (some rootNodeJsonElement) =>
      match pyIndex rootNodeJsonElement (.pstr "id") with
      | .error err => some (.error err)
      | .ok rootNodeID =>
        match getChildrenForNode fuel loadedJson flatList rootNodeID false with
        | none => none
        | some (.error err) => some (.error err)
        | some (.ok childNodeIDs) =>
          match buildCategories fuel loadedJson flatList childNodeIDs [] with
          | none => none
          | some (.error err) => some (.error err)
          | some (.ok categories) => some (.ok (mkOutput categories))

/-- The `loadedJson` / `loadedJsonFlatList` instance attributes of
`UberonTerminologyImporterLogic` (both `None` right after `__init__`). -/
structure LogicState where
  loadedJson : Option PVal
  loadedJsonFlatList : Option (List (List PVal))

/-- `process(parameterNode)` on an already-parsed input document: the
loaded-ontology attributes are assigned from the input before any other
step, every later read uses the freshly assigned values, and the
attributes keep those values when the call returns (normally or by
raising). -/
def process (fuel : Nat) (st : LogicState) (doc : PVal) :
    Option (Except PyErr PVal) × LogicState :=
  let loaded : Option PVal := some doc
  let flat : List (List PVal) := flatListFromDict doc []
  let st2 : LogicState := ⟨loaded, some flat⟩
  (processBody fuel st2.loadedJson flat, st2)

/-! ### Specification-side definitions

The definitions below restate parts of the specification in Lean so that
the code model above can be compared against them: the scalar leaves of a
document, the class of documents on which the flattening is lossless, the
first-match search predicate, the per-edge direct-children set, and a
synthetic OBO-graph ontology builder. -/

mutual
/-- The scalar leaves of a JSON value, in document traversal order
(spec: "every leaf value in the Ontology Document"). -/
def leaves : PVal → List PVal
  | .plist xs => leavesL xs
  | .pdict items => leavesD items
  | v => [v]

/-- Scalar leaves of a list of values, in order. -/
def leavesL : List PVal → List PVal
  | [] => []
  | x :: xs => leaves x ++ leavesL xs

/-- Scalar leaves of a dict's items, in order. -/
def leavesD : List (String × PVal) → List PVal
  | [] => []
  | (_, v) :: rest => leaves v ++ leavesD rest
end

/-- The keys of a dict item list are pairwise distinct (Python dicts,
hence `json.loads` results, always satisfy this). -/
def keysNodup : List (String × PVal) → Bool
  | [] => true
  | (k, _) :: rest => !(rest.any (fun kv => kv.1 == k)) && keysNodup rest

mutual
/-- A document position at which `flatListFromDict` is applied directly
(the top level, or a list element): the flattening is leaf-lossless there
iff the value is not itself a list and is faithful below. -/
def flatFaithful : PVal → Bool
  | .plist _ => false
  | .pdict items => keysNodup items && faithfulItems items
  | _ => true

/-- Every value of a dict item list is faithful as a dict value. -/
def faithfulItems : List (String × PVal) → Bool
  | [] => true
  | (_, v) :: rest => faithfulValue v && faithfulItems rest

/-- A dict value is faithful when nested dicts are faithful, list
elements are faithful positions (so no list directly inside a list), and
scalars always. -/
def faithfulValue : PVal → Bool
  | .pdict items => keysNodup items && faithfulItems items
  | .plist elems => faithfulElems elems
  | _ => true

/-- Every element of a list value is a faithful flattening position. -/
def faithfulElems : List PVal → Bool
  | [] => true
  | v :: rest => flatFaithful v && faithfulElems rest
end

/-- The search predicate of the specification's `findByLastValue`: the
element's final entry equals `value` and, when given, its second-to-last
entry equals the tag. -/
def findSpecMatch (elem : List PVal) (value : PVal) (tag : Option PVal) : Bool :=
  match elem.getLast? with
  | none => false
  | some lastV =>
    pyEq lastV value &&
      match tag with
      | none => true
      | some t =>
        match elem.get? (elem.length - 2) with
        | none => false
        | some sndLastV => pyEq sndLastV t

/-- Replay a list of path segments (keys and `[index]` wrappers) from a
value, with the same unwrap and subscription semantics as the code. -/
def replaySegs (cur : PVal) : List PVal → Except PyErr PVal
  | [] => .ok cur
  | e :: rest =>
    match unwrapSeg e with
    | .error err => .error err
    | .ok e2 =>
      match pyIndex cur e2 with
      | .error err => .error err
      | .ok nxt => replaySegs nxt rest

/-- Specification-side direct-children accumulation: scan the edge list in
order and add the subject of every containment edge pointing at `n` (the
predicate test is Python membership in the containment predicate list). -/
def specFold (n : String) : List (String × String × String) → List PVal → List PVal
  | [], acc => acc
  | e :: rest, acc =>
    if e.2.2 == n && containmentPredicateIDs.any (fun p => e.2.1 == p) then
      specFold n rest (pyAdd acc (.pstr e.1))
    else specFold n rest acc

/-- Specification-side direct children of `n`: deduplicated subjects of
containment edges whose object is `n`, in edge order. -/
def specDirectChildren (edges : List (String × String × String)) (n : String) : List PVal :=
  specFold n edges []

/-- A well-formed flat element relative to a document `root`: a segment
list that replays to the element's final entry, followed by that final
entry, which survives the unwrap step. -/
def PathSpec (root : PVal) (e : List PVal) : Prop :=
  ∃ segs leafV, e = segs ++ [leafV] ∧ replaySegs root segs = .ok leafV ∧
    ∃ w, unwrapSeg leafV = .ok w

/-- An OBO-graph node object with keys `id` and `lbl`. -/
def nodePVal (n : String × String) : PVal :=
  .pdict [("id", .pstr n.1), ("lbl", .pstr n.2)]

/-- An OBO-graph edge object with keys `sub`, `pred` and `obj`. -/
def edgePVal (e : String × String × String) : PVal :=
  .pdict [("sub", .pstr e.1), ("pred", .pstr e.2.1), ("obj", .pstr e.2.2)]

/-- One OBO graph with keys `nodes` and `edges`. -/
def mkGraph (nodes : List (String × String)) (edges : List (String × String × String)) : PVal :=
  .pdict [("nodes", .plist (nodes.map nodePVal)), ("edges", .plist (edges.map edgePVal))]

/-- A synthetic OBO-graph ontology document: a `graphs` key holding one
graph, shaped exactly as the expected importer input. -/
def mkOntology (nodes : List (String × String)) (edges : List (String × String × String)) :
    PVal :=
  .pdict [("graphs", .plist [mkGraph nodes edges])]

/-- The flat elements contributed by the node list (two per node: its `id`
and its `lbl`), starting at node index `k`. -/
def nodePaths : Nat → List (String × String) → List (List PVal)
  | _, [] => []
  | k, n :: rest =>
    [[.pstr "graphs", .plist [.pint 0], .pstr "nodes", .plist [.pint (k : Int)],
        .pstr "id", .pstr n.1],
     [.pstr "graphs", .plist [.pint 0], .pstr "nodes", .plist [.pint (k : Int)],
        .pstr "lbl", .pstr n.2]] ++ nodePaths (k + 1) rest

/-- The flat elements contributed by the edge list (three per edge: `sub`,
`pred`, `obj`), starting at edge index `k`. -/
def edgePaths : Nat → List (String × String × String) → List (List PVal)
  | _, [] => []
  | k, e :: rest =>
    [[.pstr "graphs", .plist [.pint 0], .pstr "edges", .plist [.pint (k : Int)],
        .pstr "sub", .pstr e.1],
     [.pstr "graphs", .plist [.pint 0], .pstr "edges", .plist [.pint (k : Int)],
        .pstr "pred", .pstr e.2.1],
     [.pstr "graphs", .plist [.pint 0], .pstr "edges", .plist [.pint (k : Int)],
        .pstr "obj", .pstr e.2.2]] ++ edgePaths (k + 1) rest

/-! ### Concrete documents used as witnesses and counterexamples -/

/-- A three-node containment cycle A→B→C→A: every edge is an `is_a` edge,
`sub` is the child and `obj` the parent. -/
def cycEdges : List (String × String × String) :=
  [("B", "is_a", "A"), ("C", "is_a", "B"), ("A", "is_a", "C")]

/-- The nodes of the cyclic ontology. -/
def cycNodes : List (String × String) :=
  [("A", "node a"), ("B", "node b"), ("C", "node c")]

/-- The cyclic ontology document. -/
def cycDoc : PVal := mkOntology cycNodes cycEdges

/-- The flattened index of the cyclic ontology. -/
def cycFlat : List (List PVal) := flatListFromDict cycDoc []

/-- Nodes of a small well-formed ontology: a root carrying the configured
label, one category child with one leaf child, and one childless direct
child of the root. -/
def exNodes : List (String × String) :=
  [("R", "subdivision of skeleton"), ("CAT", "catA"), ("LEAF", "leafA"), ("E", "emptyCat")]

/-- Edges of the small ontology: CAT and E are direct children of R, LEAF
is a child of CAT. -/
def exEdges : List (String × String × String) :=
  [("CAT", "is_a", "R"), ("LEAF", "is_a", "CAT"), ("E", "is_a", "R")]

/-- The small well-formed ontology document. -/
def exDoc : PVal := mkOntology exNodes exEdges

/-- The flattened index of the small ontology. -/
def exFlat : List (List PVal) := flatListFromDict exDoc []

/-- An ontology with no node labelled with the configured root label, but
whose single node carries the root label string as its id — the label
occurs as a non-lbl leaf, so the search must pass it over (tag mismatch)
and still end in the not-found error. -/
def decoyDoc : PVal := mkOntology [("subdivision of skeleton", "some other label")] []

/-- The terminology document `process` writes for the small ontology. -/
def exOut : PVal :=
  mkOutput [mkCategory (.pstr "catA") (.pstr "CAT") [mkType (.pstr "leafA") (.pstr "LEAF")]]

/-- A document with an array directly inside an array, mapping key a to
the value consisting of the nested arrays of 1 and 2. -/
def nestedArrayDoc : PVal := .pdict [("a", .plist [.plist [.pint 1, .pint 2]])]

/-- A one-leaf document mapping key a to the integer 1. -/
def oneLeafDoc : PVal := .pdict [("a", .pint 1)]

/-! ### Basic lemmas about the Python-value helpers -/

theorem pyEq_pstr_pstr (a b : String) : pyEq (.pstr a) (.pstr b) = (a == b) := rfl

theorem pyEq_pstr_right (x : PVal) (s : String) :
    pyEq x (.pstr s) = true ↔ x = .pstr s := by
  cases x <;> simp [pyEq]

theorem pyEq_pstr_refl (s : String) : pyEq (.pstr s) (.pstr s) = true := by
  simp [pyEq]

/-- The direct children of node A in the cyclic ontology. -/
theorem cycDirect_A : getChildrenDirect (some cycDoc) cycFlat (.pstr "A") = .ok [.pstr "B"] := rfl

/-- The direct children of node B in the cyclic ontology. -/
theorem cycDirect_B : getChildrenDirect (some cycDoc) cycFlat (.pstr "B") = .ok [.pstr "C"] := rfl

/-- The direct children of node C in the cyclic ontology. -/
theorem cycDirect_C : getChildrenDirect (some cycDoc) cycFlat (.pstr "C") = .ok [.pstr "A"] := rfl

/-- On the three-node containment cycle, the recursive child computation
exhausts every recursion budget from each of the three nodes: the source
recursion never returns. -/
theorem cycRec_none : ∀ fuel : Nat,
    getChildrenRec fuel (some cycDoc) cycFlat (.pstr "A") = none ∧
    getChildrenRec fuel (some cycDoc) cycFlat (.pstr "B") = none ∧
    getChildrenRec fuel (some cycDoc) cycFlat (.pstr "C") = none
  | 0 => ⟨rfl, rfl, rfl⟩
  | fuel + 1 => by
    obtain ⟨hA, hB, hC⟩ := cycRec_none fuel
    refine ⟨?_, ?_, ?_⟩ <;>
      simp [getChildrenRec, cycDirect_A, cycDirect_B, cycDirect_C, recChildLoop,
        pyMem, hA, hB, hC]

/-- C1 (code bug): on an edge set with a containment cycle A→B→C→A, the
non-recursive call returns the direct children of A, but
`getChildrenForNode(A, recursive=True)` exhausts every recursion budget —
the source recursion never terminates (RecursionError), contradicting the
claimed cycle-safe termination and superset result. -/
theorem C1_cycle_nontermination (fuel : Nat) :
    getChildrenForNode fuel (some cycDoc) cycFlat (.pstr "A") false = some (.ok [.pstr "B"]) ∧
    getChildrenForNode fuel (some cycDoc) cycFlat (.pstr "A") true = none := by
  refine ⟨by simp [getChildrenForNode, cycDirect_A], ?_⟩
  have h := (cycRec_none fuel).1
  simpa [getChildrenForNode] using h

/-- Helper: the flattening of any non-dict value is the single whole-value
element. -/
theorem flat_nonDict_eq (v : PVal) (previous : List PVal) (h : v.isDict = false) :
    flatListFromDict v previous = [previous ++ [v]] := by
  cases v <;> first
    | rfl
    | simp [PVal.isDict] at h

/-- C10: `flatListFromDict` recurses only into dicts (and, from a dict
key, into list elements): applied to any non-dict value — including a bare
array and an array element that is itself an array, where the prefix ends
in a key and an index segment — it emits exactly one flat element, the
prefix followed by the whole value. -/
theorem C10_nonDict_whole_leaf (v : PVal) (previous : List PVal) (h : v.isDict = false) :
    flatListFromDict v previous = [previous ++ [v]] :=
  flat_nonDict_eq v previous h

/-- Witness for C10 at an array nested directly inside an array. -/
theorem C10_witness :
    (PVal.plist [.plist [.pint 1]]).isDict = false ∧
    flatListFromDict (.plist [.plist [.pint 1]]) [.pstr "k", .plist [.pint 0]] =
      [[.pstr "k", .plist [.pint 0], .plist [.plist [.pint 1]]]] :=
  ⟨rfl, C10_nonDict_whole_leaf (.plist [.plist [.pint 1]]) [.pstr "k", .plist [.pint 0]] rfl⟩

/-- C9 (counterexample): after `process` returns, the loaded-ontology
attributes still hold the parsed document — the state is not discarded
when the run completes. -/
theorem C9_counterexample :
    (process 1 ⟨none, none⟩ exDoc).2.loadedJson = some exDoc ∧
    some exDoc ≠ (none : Option PVal) :=
  ⟨rfl, by simp⟩

/-- C9 (amended): each `process` invocation unconditionally overwrites the
loaded-ontology attributes from the current input (so a re-run re-parses
and re-flattens and never reuses prior state — the result is independent
of the pre-call state), but the attributes retain the freshly built
document and flat index after the call returns instead of being
discarded. -/
theorem C9_state_overwritten_and_retained (fuel : Nat) (st : LogicState) (doc : PVal) :
    (process fuel st doc).2.loadedJson = some doc ∧
    (process fuel st doc).2.loadedJsonFlatList = some (flatListFromDict doc []) ∧
    (process fuel st doc).1 = (process fuel ⟨none, none⟩ doc).1 :=
  ⟨rfl, rfl, rfl⟩

/-- `elem[-1]` returns the last entry of a nonempty element. -/
theorem pyNegGet_one (e : List PVal) (v : PVal) (h : e.getLast? = some v) :
    pyNegGet e 1 = .ok v := by
  have hne : e ≠ [] := by intro heq; subst heq; simp at h
  have hlen : 1 ≤ e.length := by
    cases e with
    | nil => exact absurd rfl hne
    | cons a t => simp
  have hget : e.get? (e.length - 1) = some v := by
    rw [List.get?_eq_getElem?, ← List.getLast?_eq_getElem?]; exact h
  unfold pyNegGet
  rw [if_pos hlen, hget]

/-- `elem[-2]` returns the second-to-last entry of an element with at
least two entries. -/
theorem pyNegGet_two (e : List PVal) (h : 2 ≤ e.length) :
    ∃ v, e.get? (e.length - 2) = some v ∧ pyNegGet e 2 = .ok v := by
  have hlt : e.length - 2 < e.length := by omega
  obtain ⟨v, hv⟩ : ∃ v, e.get? (e.length - 2) = some v := by
    rw [List.get?_eq_getElem?]
    exact ⟨_, List.getElem?_eq_getElem hlt⟩
  exact ⟨v, hv, by unfold pyNegGet; rw [if_pos h, hv]⟩

/-- C4 (counterexample): on the flattened index of the scalar document
x — a genuine output of `flatListFromDict` — searching for x with a
required preceding key raises IndexError from the `elem[-2]` access on the
one-entry matching path, not the explicit not-found error the claim
requires when no path with a matching second-to-last segment exists. -/
theorem C4_counterexample :
    flatListFromDict (.pstr "x") [] = [[.pstr "x"]] ∧
    findValueInFlatList (flatListFromDict (.pstr "x") []) (.pstr "x") (some (.pstr "lbl")) =
      .error .indexError ∧
    PyErr.indexError ≠ PyErr.runtimeNotFound :=
  ⟨rfl, rfl, by decide⟩

/-- Helper: on a flattened index all of whose elements have at least two
entries, the scan is first-match search, with the explicit not-found error
when no element matches. -/
theorem findValueInFlatList_first_match (flatList : List (List PVal)) (value : PVal)
    (tag : Option PVal) (h : ∀ e ∈ flatList, 2 ≤ e.length) :
    findValueInFlatList flatList value tag =
      match flatList.find? (fun e => findSpecMatch e value tag) with
      | some e => .ok e
      | none => .error .runtimeNotFound := by
  induction flatList with
  | nil => rfl
  | cons elem rest ih =>
    have hlen : 2 ≤ elem.length := h elem (by simp)
    have hrest : ∀ e ∈ rest, 2 ≤ e.length := fun e he => h e (by simp [he])
    obtain ⟨lastV, hlast⟩ : ∃ v, elem.getLast? = some v := by
      have hne : elem ≠ [] := by intro heq; subst heq; simp at hlen
      exact Option.isSome_iff_exists.mp (by rwa [List.getLast?_isSome])
    have h1 := pyNegGet_one elem lastV hlast
    by_cases hv : pyEq lastV value = true
    · cases tag with
      | none =>
        have hmatch : findSpecMatch elem value none = true := by
          simp [findSpecMatch, hlast, hv]
        simp [List.find?_cons, hmatch, findValueInFlatList, h1, hv]
      | some t =>
        obtain ⟨sndV, hsnd, h2⟩ := pyNegGet_two elem hlen
        rw [List.get?_eq_getElem?] at hsnd
        by_cases ht : pyEq sndV t = true
        · have hmatch : findSpecMatch elem value (some t) = true := by
            simp [findSpecMatch, hlast, hv, hsnd, ht]
          simp [List.find?_cons, hmatch, findValueInFlatList, h1, hv, h2, ht]
        · have ht2 : pyEq sndV t = false := by simpa using ht
          have hmatch : findSpecMatch elem value (some t) = false := by
            simp [findSpecMatch, hlast, hv, hsnd, ht2]
          have hstep : findValueInFlatList (elem :: rest) value (some t) =
              findValueInFlatList rest value (some t) := by
            simp [findValueInFlatList, h1, hv, h2, ht2]
          rw [hstep, List.find?_cons, hmatch]
          exact ih hrest
    · have hv2 : pyEq lastV value = false := by simpa using hv
      have hmatch : findSpecMatch elem value tag = false := by
        simp [findSpecMatch, hlast, hv2]
      have hstep : findValueInFlatList (elem :: rest) value tag =
          findValueInFlatList rest value tag := by
        simp [findValueInFlatList, h1, hv2]
      rw [hstep, List.find?_cons, hmatch]
      exact ih hrest

/-- C4 (amended): on a flattened index all of whose elements have at
least two entries (true of every index built from a mapping-rooted
document), `findValueInFlatList` returns the first element in index order
whose last entry equals the searched value and — when a tag is given —
whose second-to-last entry equals the tag, and raises the explicit
not-found error when no such element exists. -/
theorem C4_first_match_or_not_found (flatList : List (List PVal)) (value : PVal)
    (tag : Option PVal) (h : ∀ e ∈ flatList, 2 ≤ e.length) :
    findValueInFlatList flatList value tag =
      match flatList.find? (fun e => findSpecMatch e value tag) with
      | some e => .ok e
      | none => .error .runtimeNotFound :=
  findValueInFlatList_first_match flatList value tag h

/-- Witness for the amended C4: on the small ontology index, searching
for the label catA with required preceding key lbl returns the flat
element of the CAT node label. -/
theorem C4_witness :
    (∀ e ∈ exFlat, 2 ≤ e.length) ∧
    findValueInFlatList exFlat (.pstr "catA") (some (.pstr "lbl")) =
      .ok [.pstr "graphs", .plist [.pint 0], .pstr "nodes", .plist [.pint 1],
           .pstr "lbl", .pstr "catA"] := by
  refine ⟨by decide, ?_⟩
  rw [C4_first_match_or_not_found exFlat (.pstr "catA") (some (.pstr "lbl")) (by decide)]
  rfl

/-- C5 (counterexample): with no loaded document, materialization logs and
returns Python None — a returned default value, not a raised error —
while an absent key on a loaded document genuinely raises KeyError. -/
theorem C5_counterexample :
    getJsonElementFromFlatElement none [.pstr "a"] 99999 = .ok none ∧
    getJsonElementFromFlatElement (some oneLeafDoc) [.pstr "b"] 99999 = .error .keyError :=
  ⟨rfl, rfl⟩

/-- C5 (amended): with no loaded document `getJsonElementFromFlatElement`
returns None (after logging) instead of raising; with a loaded document it
never returns a defaulted None — it either returns the materialized
sub-value or raises — and an absent key at the start of the replayed path
raises KeyError. -/
theorem C5_none_default_or_raise :
    (∀ (flatElement : List PVal) (depth : Nat),
      getJsonElementFromFlatElement none flatElement depth = .ok none) ∧
    (∀ (doc : PVal) (flatElement : List PVal) (depth : Nat),
      (∃ v, getJsonElementFromFlatElement (some doc) flatElement depth = .ok (some v)) ∨
      (∃ err, getJsonElementFromFlatElement (some doc) flatElement depth = .error err)) ∧
    (∀ (items : List (String × PVal)) (k : String) (rest : List PVal) (depth : Nat),
      lookupStr k items = none → depth ≠ 0 →
      getJsonElementFromFlatElement (some (.pdict items)) (.pstr k :: rest) depth =
        .error .keyError) := by
  refine ⟨fun _ _ => rfl, ?_, ?_⟩
  · intro doc flatElement depth
    cases hw : getJsonWalk flatElement depth 0 doc with
    | error err => exact Or.inr ⟨err, by simp [getJsonElementFromFlatElement, hw]⟩
    | ok v => exact Or.inl ⟨v, by simp [getJsonElementFromFlatElement, hw]⟩
  · intro items k rest depth hl hd
    have hd2 : (0 = depth) = False := by simp [Ne.symm hd]
    simp [getJsonElementFromFlatElement, getJsonWalk, unwrapSeg, hd2, pyIndex, hl]

/-- Witness for the amended C5 at concrete inputs. -/
theorem C5_witness :
    getJsonElementFromFlatElement none [.pstr "a"] 5 = .ok none ∧
    (lookupStr "c" [("a", PVal.pint 1)] = none ∧
      getJsonElementFromFlatElement (some (.pdict [("a", .pint 1)])) [.pstr "c"] 99999 =
        .error .keyError) :=
  ⟨C5_none_default_or_raise.1 [.pstr "a"] 5,
   rfl,
   C5_none_default_or_raise.2.2 [("a", .pint 1)] "c" [] 99999 rfl (by decide)⟩

/-- Membership in a one-element flat list forces a nonempty element. -/
theorem mem_single_ne_nil {e prev : List PVal} {v : PVal} (he : e ∈ [prev ++ [v]]) :
    e ≠ [] := by
  simp only [List.mem_singleton] at he
  subst he
  simp

/-- Prepending a key/value element to a list of nonempty elements keeps
every element nonempty. -/
theorem cons_path_ne_nil {prev : List PVal} {a b : PVal} {rest : List (List PVal)}
    (hrest : ∀ e ∈ rest, e ≠ []) : ∀ e ∈ (prev ++ [a, b]) :: rest, e ≠ [] := by
  intro e he
  rcases List.mem_cons.mp he with rfl | h
  · simp
  · exact hrest e h

mutual
/-- Every element of a flattened document is nonempty. -/
theorem flat_ne_nil : ∀ (d : PVal) (prev : List PVal), ∀ e ∈ flatListFromDict d prev, e ≠ []
  | .pstr _, _ => fun _ he => mem_single_ne_nil he
  | .pint _, _ => fun _ he => mem_single_ne_nil he
  | .pbool _, _ => fun _ he => mem_single_ne_nil he
  | .pnull, _ => fun _ he => mem_single_ne_nil he
  | .plist _, _ => fun _ he => mem_single_ne_nil he
  | .pdict items, prev => flatItems_ne_nil items prev

/-- Every element flattened from dict items is nonempty. -/
theorem flatItems_ne_nil : ∀ (items : List (String × PVal)) (prev : List PVal),
    ∀ e ∈ flatDictItems items prev, e ≠ []
  | [], _ => by simp [flatDictItems]
  | (key, .pdict inner) :: rest, prev => by
    intro e he
    simp only [flatDictItems] at he
    rcases List.mem_append.mp he with h1 | h2
    · exact flatItems_ne_nil inner (prev ++ [.pstr key]) e h1
    · exact flatItems_ne_nil rest prev e h2
  | (key, .plist elems) :: rest, prev => by
    intro e he
    simp only [flatDictItems] at he
    rcases List.mem_append.mp he with h1 | h2
    · exact flatElems_ne_nil elems key 0 prev e h1
    · exact flatItems_ne_nil rest prev e h2
  | (key, .pstr s) :: rest, prev => cons_path_ne_nil (flatItems_ne_nil rest prev)
  | (key, .pint n) :: rest, prev => cons_path_ne_nil (flatItems_ne_nil rest prev)
  | (key, .pbool b) :: rest, prev => cons_path_ne_nil (flatItems_ne_nil rest prev)
  | (key, .pnull) :: rest, prev => cons_path_ne_nil (flatItems_ne_nil rest prev)

/-- Every element flattened from list elements is nonempty. -/
theorem flatElems_ne_nil : ∀ (elems : List PVal) (key : String) (k : Nat) (prev : List PVal),
    ∀ e ∈ flatListElems elems key k prev, e ≠ []
  | [], _, _, _ => by simp [flatListElems]
  | v :: rest, key, k, prev => by
    intro e he
    simp only [flatListElems] at he
    rcases List.mem_append.mp he with h1 | h2
    · exact flat_ne_nil v (prev ++ [.pstr key, .plist [.pint (k : Int)]]) e h1
    · exact flatElems_ne_nil rest key (k + 1) prev e h2
end

/-- When no element's last entry equals the searched value, the scan
raises the explicit not-found error. -/
theorem findValueInFlatList_not_found (flatList : List (List PVal)) (value : PVal)
    (tag : Option PVal)
    (h : ∀ e ∈ flatList, e ≠ [] ∧ ∀ v, e.getLast? = some v → pyEq v value = false) :
    findValueInFlatList flatList value tag = .error .runtimeNotFound := by
  induction flatList with
  | nil => rfl
  | cons elem rest ih =>
    obtain ⟨hne, hval⟩ := h elem (by simp)
    obtain ⟨lastV, hlast⟩ : ∃ v, elem.getLast? = some v :=
      Option.isSome_iff_exists.mp (by rwa [List.getLast?_isSome])
    have h1 := pyNegGet_one elem lastV hlast
    have hfalse := hval lastV hlast
    have hstep : findValueInFlatList (elem :: rest) value tag =
        findValueInFlatList rest value tag := by
      simp [findValueInFlatList, h1, hfalse]
    rw [hstep]
    exact ih (fun e he => h e (by simp [he]))

mutual
/-- Every element flattened from dict items extends the prefix by at
least a key and a value. -/
theorem flatItems_len : ∀ (items : List (String × PVal)) (prev : List PVal),
    ∀ e ∈ flatDictItems items prev, prev.length + 2 ≤ e.length
  | [], _ => by simp [flatDictItems]
  | (key, .pdict inner) :: rest, prev => by
    intro e he
    simp only [flatDictItems] at he
    rcases List.mem_append.mp he with h1 | h2
    · have h3 := flatItems_len inner (prev ++ [.pstr key]) e h1
      simp only [List.length_append, List.length_cons, List.length_nil] at h3
      omega
    · exact flatItems_len rest prev e h2
  | (key, .plist elems) :: rest, prev => by
    intro e he
    simp only [flatDictItems] at he
    rcases List.mem_append.mp he with h1 | h2
    · exact flatElems_len elems key 0 prev e h1
    · exact flatItems_len rest prev e h2
  | (key, .pstr s) :: rest, prev => by
    intro e he
    simp only [flatDictItems] at he
    rcases List.mem_cons.mp he with rfl | h2
    · simp
    · exact flatItems_len rest prev e h2
  | (key, .pint n) :: rest, prev => by
    intro e he
    simp only [flatDictItems] at he
    rcases List.mem_cons.mp he with rfl | h2
    · simp
    · exact flatItems_len rest prev e h2
  | (key, .pbool b) :: rest, prev => by
    intro e he
    simp only [flatDictItems] at he
    rcases List.mem_cons.mp he with rfl | h2
    · simp
    · exact flatItems_len rest prev e h2
  | (key, .pnull) :: rest, prev => by
    intro e he
    simp only [flatDictItems] at he
    rcases List.mem_cons.mp he with rfl | h2
    · simp
    · exact flatItems_len rest prev e h2

/-- Every element flattened from list elements extends the prefix by at
least two entries. -/
theorem flatElems_len : ∀ (elems : List PVal) (key : String) (k : Nat) (prev : List PVal),
    ∀ e ∈ flatListElems elems key k prev, prev.length + 2 ≤ e.length
  | [], _, _, _ => by simp [flatListElems]
  | v :: rest, key, k, prev => by
    intro e he
    simp only [flatListElems] at he
    rcases List.mem_append.mp he with h1 | h2
    · have h3 := flat_len_top v (prev ++ [.pstr key, .plist [.pint (k : Int)]]) e h1
      simp only [List.length_append, List.length_cons, List.length_nil] at h3
      omega
    · exact flatElems_len rest key (k + 1) prev e h2

/-- Every flattened element extends its prefix by at least one entry. -/
theorem flat_len_top : ∀ (d : PVal) (prev : List PVal),
    ∀ e ∈ flatListFromDict d prev, prev.length + 1 ≤ e.length
  | .pstr s, prev => fun e he => by
    have he2 : e = prev ++ [.pstr s] := by simpa [flatListFromDict] using he
    subst he2; simp
  | .pint n, prev => fun e he => by
    have he2 : e = prev ++ [.pint n] := by simpa [flatListFromDict] using he
    subst he2; simp
  | .pbool b, prev => fun e he => by
    have he2 : e = prev ++ [.pbool b] := by simpa [flatListFromDict] using he
    subst he2; simp
  | .pnull, prev => fun e he => by
    have he2 : e = prev ++ [.pnull] := by simpa [flatListFromDict] using he
    subst he2; simp
  | .plist xs, prev => fun e he => by
    have he2 : e = prev ++ [.plist xs] := by simpa [flatListFromDict] using he
    subst he2; simp
  | .pdict items, prev => fun e he => by
    have h3 := flatItems_len items prev e he
    omega
end

/-- C7: on any mapping-rooted input ontology in which the configured root
label has no matching node — no flat element carries it as a leaf directly
preceded by the lbl key, even when the label string occurs as some other,
non-lbl leaf — `process` stops with the explicit root-not-found error
before any category is built: the model yields that error outcome and
produces no output document (the source writes the output file only after
the whole build succeeds). -/
theorem C7_root_not_found (fuel : Nat) (doc : PVal) (hdict : doc.isDict = true)
    (h : (flatListFromDict doc []).all
      (fun e => !(findSpecMatch e (.pstr rootNodeLabel) (some (.pstr "lbl")))) = true) :
    processBody fuel (some doc) (flatListFromDict doc []) =
      some (.error .runtimeNotFound) := by
  have hlen : ∀ e ∈ flatListFromDict doc [], 2 ≤ e.length := by
    intro e he
    cases doc with
    | pdict items =>
      have h3 := flatItems_len items [] e he
      simpa using h3
    | pstr s => simp [PVal.isDict] at hdict
    | pint n => simp [PVal.isDict] at hdict
    | pbool b => simp [PVal.isDict] at hdict
    | pnull => simp [PVal.isDict] at hdict
    | plist xs => simp [PVal.isDict] at hdict
  have hnone : (flatListFromDict doc []).find?
      (fun e => findSpecMatch e (.pstr rootNodeLabel) (some (.pstr "lbl"))) = none := by
    rw [List.find?_eq_none]
    intro e he
    have h2 := (List.all_eq_true.mp h) e he
    simpa using h2
  have hfind := findValueInFlatList_first_match (flatListFromDict doc [])
    (.pstr rootNodeLabel) (some (.pstr "lbl")) hlen
  rw [hnone] at hfind
  simp [processBody, hfind]

/-- Witness for C7: the decoy ontology carries the root label string only
as a node id — an unrelated non-lbl leaf the search passes over — and has
no node labelled with it, so `process` yields the not-found error. -/
theorem C7_witness :
    decoyDoc.isDict = true ∧
    ((flatListFromDict decoyDoc []).all
      (fun e => !(findSpecMatch e (.pstr rootNodeLabel) (some (.pstr "lbl")))) = true) ∧
    processBody 3 (some decoyDoc) (flatListFromDict decoyDoc []) =
      some (.error .runtimeNotFound) :=
  ⟨rfl, rfl, C7_root_not_found 3 decoyDoc rfl rfl⟩

/-! ### The flattened index and direct-children scan of a synthetic
OBO-graph ontology -/

/-- A node object flattens to its `id` and `lbl` elements. -/
theorem flat_nodePVal (n : String × String) (prev : List PVal) :
    flatListFromDict (nodePVal n) prev =
      [prev ++ [.pstr "id", .pstr n.1], prev ++ [.pstr "lbl", .pstr n.2]] := rfl

/-- An edge object flattens to its `sub`, `pred` and `obj` elements. -/
theorem flat_edgePVal (e : String × String × String) (prev : List PVal) :
    flatListFromDict (edgePVal e) prev =
      [prev ++ [.pstr "sub", .pstr e.1], prev ++ [.pstr "pred", .pstr e.2.1],
       prev ++ [.pstr "obj", .pstr e.2.2]] := rfl

/-- The node list flattens to the node paths. -/
theorem flatListElems_nodes (nodes : List (String × String)) (k : Nat) :
    flatListElems (nodes.map nodePVal) "nodes" k [.pstr "graphs", .plist [.pint 0]] =
      nodePaths k nodes := by
  induction nodes generalizing k with
  | nil => rfl
  | cons n rest ih =>
    simp [flatListElems, flat_nodePVal, nodePaths, ih (k + 1)]

/-- The edge list flattens to the edge paths. -/
theorem flatListElems_edges (edges : List (String × String × String)) (k : Nat) :
    flatListElems (edges.map edgePVal) "edges" k [.pstr "graphs", .plist [.pint 0]] =
      edgePaths k edges := by
  induction edges generalizing k with
  | nil => rfl
  | cons e rest ih =>
    simp [flatListElems, flat_edgePVal, edgePaths, ih (k + 1)]

/-- The flattened index of a synthetic ontology: all node paths followed
by all edge paths. -/
theorem flat_mkOntology (nodes : List (String × String))
    (edges : List (String × String × String)) :
    flatListFromDict (mkOntology nodes edges) [] = nodePaths 0 nodes ++ edgePaths 0 edges := by
  simp only [mkOntology, mkGraph, flatListFromDict, flatDictItems, flatListElems,
    List.nil_append, List.append_nil, Nat.cast_zero]
  rw [flatListElems_nodes, flatListElems_edges]

/-- Materializing an obj edge path at depth 4 yields the edge object. -/
theorem materialize_objPath (nodes : List (String × String))
    (edges : List (String × String × String)) (k : Nat) (e : String × String × String)
    (he : edges.get? k = some e) (v : PVal) :
    getJsonElementFromFlatElement (some (mkOntology nodes edges))
      [.pstr "graphs", .plist [.pint 0], .pstr "edges", .plist [.pint (k : Int)],
        .pstr "obj", v] 4 = .ok (some (edgePVal e)) := by
  have hnn : ¬ ((k : Int) < 0) := by omega
  have htn : ((k : Int)).toNat = k := Int.toNat_natCast k
  have hmap : (edges.map edgePVal).get? k = some (edgePVal e) := by
    rw [List.get?_eq_getElem?, List.getElem?_map]
    rw [List.get?_eq_getElem?] at he
    rw [he]
    rfl
  have hwalk : getJsonWalk
      [.pstr "graphs", .plist [.pint 0], .pstr "edges", .plist [.pint (k : Int)],
        .pstr "obj", v] 4 0 (mkOntology nodes edges) = .ok (edgePVal e) := by
    show getJsonWalk [.plist [.pint (k : Int)], .pstr "obj", v] 4 3
        (.plist (edges.map edgePVal)) = .ok (edgePVal e)
    rw [List.get?_eq_getElem?] at hmap
    simp [getJsonWalk, unwrapSeg, pyIndex, pyListGet, hnn, htn, hmap]
  simp [getJsonElementFromFlatElement, hwalk]

/-- The direct-children scan skips every node path. -/
theorem scanDirect_nodePaths (lj : Option PVal) (nid : PVal)
    (nodes : List (String × String)) (k : Nat) (rest : List (List PVal)) (acc : List PVal) :
    scanDirect lj nid (nodePaths k nodes ++ rest) acc = scanDirect lj nid rest acc := by
  induction nodes generalizing k with
  | nil => rfl
  | cons n nrest ih =>
    show scanDirect lj nid (nodePaths (k + 1) nrest ++ rest) acc = _
    exact ih (k + 1)

/-- One obj edge path updates the accumulator exactly when the edge is a
containment edge pointing at the queried node. -/
theorem scanDirect_objPath_step (nodes : List (String × String))
    (edgesAll : List (String × String × String)) (n : String) (k : Nat)
    (e : String × String × String) (he : edgesAll.get? k = some e)
    (tail : List (List PVal)) (acc : List PVal) :
    scanDirect (some (mkOntology nodes edgesAll)) (.pstr n)
      ([.pstr "graphs", .plist [.pint 0], .pstr "edges", .plist [.pint (k : Int)],
        .pstr "obj", .pstr e.2.2] :: tail) acc =
    scanDirect (some (mkOntology nodes edgesAll)) (.pstr n) tail
      (if e.2.2 == n && containmentPredicateIDs.any (fun p => e.2.1 == p)
       then pyAdd acc (.pstr e.1) else acc) := by
  have hmat := materialize_objPath nodes edgesAll k e he (.pstr e.2.2)
  have hpred : pyIndex (edgePVal e) (.pstr "pred") = .ok (.pstr e.2.1) := rfl
  have hsubv : pyIndex (edgePVal e) (.pstr "sub") = .ok (.pstr e.1) := rfl
  by_cases hob : (e.2.2 == n) = true
  · have hpy : pyEq (.pstr e.2.2) (.pstr n) = true := hob
    by_cases hcp : containmentPredicateIDs.any (fun p => e.2.1 == p) = true
    · have hcp2 : containmentPredicateIDs.any (fun p => pyEq (.pstr e.2.1) (.pstr p)) = true := hcp
      simp [scanDirect, pyEq_pstr_pstr, hpy, hmat, hpred, hsubv, hcp2, hob, hcp]
    · have hcp3 : containmentPredicateIDs.any (fun p => e.2.1 == p) = false := by
        rw [← Bool.not_eq_true]; exact hcp
      have hcp2 : containmentPredicateIDs.any (fun p => pyEq (.pstr e.2.1) (.pstr p)) = false := hcp3
      simp [scanDirect, pyEq_pstr_pstr, hpy, hmat, hpred, hsubv, hcp2, hob, hcp3]
  · have hob2 : (e.2.2 == n) = false := by rw [← Bool.not_eq_true]; exact hob
    have hpy : pyEq (.pstr e.2.2) (.pstr n) = false := hob2
    simp [scanDirect, pyEq_pstr_pstr, hpy, hob2]

/-- The direct-children scan over the edge paths accumulates exactly the
specification-side fold, provided the path indices address the matching
edges of the document. -/
theorem scanDirect_edgePaths (nodes : List (String × String))
    (edgesAll : List (String × String × String)) (n : String) :
    ∀ (edges : List (String × String × String)) (k : Nat) (acc : List PVal),
    (∀ j, edgesAll.get? (k + j) = edges.get? j) →
    scanDirect (some (mkOntology nodes edgesAll)) (.pstr n) (edgePaths k edges) acc =
      .ok (specFold n edges acc) := by
  intro edges
  induction edges with
  | nil => intro k acc _; rfl
  | cons e erest ih =>
    intro k acc hsuf
    have hk : edgesAll.get? k = some e := by simpa using hsuf 0
    have hsuf2 : ∀ j, edgesAll.get? ((k + 1) + j) = erest.get? j := by
      intro j
      have h1 := hsuf (j + 1)
      rw [List.get?_cons_succ] at h1
      have h2 : k + (j + 1) = (k + 1) + j := by omega
      rwa [h2] at h1
    calc scanDirect (some (mkOntology nodes edgesAll)) (.pstr n) (edgePaths k (e :: erest)) acc
        = scanDirect (some (mkOntology nodes edgesAll)) (.pstr n)
            ([.pstr "graphs", .plist [.pint 0], .pstr "edges", .plist [.pint (k : Int)],
              .pstr "obj", .pstr e.2.2] :: edgePaths (k + 1) erest) acc := rfl
      _ = scanDirect (some (mkOntology nodes edgesAll)) (.pstr n) (edgePaths (k + 1) erest)
            (if e.2.2 == n && containmentPredicateIDs.any (fun p => e.2.1 == p)
             then pyAdd acc (.pstr e.1) else acc) :=
          scanDirect_objPath_step nodes edgesAll n k e hk _ acc
      _ = .ok (specFold n erest
            (if e.2.2 == n && containmentPredicateIDs.any (fun p => e.2.1 == p)
             then pyAdd acc (.pstr e.1) else acc)) := ih (k + 1) _ hsuf2
      _ = .ok (specFold n (e :: erest) acc) := by
          by_cases hc : (e.2.2 == n && containmentPredicateIDs.any (fun p => e.2.1 == p)) = true
          · simp [specFold, hc]
          · have hc2 : (e.2.2 == n && containmentPredicateIDs.any (fun p => e.2.1 == p)) = false := by
              rw [← Bool.not_eq_true]; exact hc
            simp [specFold, hc2]

/-- The direct-children computation on a synthetic ontology equals the
specification-side per-edge fold. -/
theorem getChildrenDirect_mkOntology (nodes : List (String × String))
    (edges : List (String × String × String)) (n : String) :
    getChildrenDirect (some (mkOntology nodes edges))
        (flatListFromDict (mkOntology nodes edges) []) (.pstr n) =
      .ok (specDirectChildren edges n) := by
  unfold getChildrenDirect
  rw [flat_mkOntology, scanDirect_nodePaths]
  exact scanDirect_edgePaths nodes edges n edges 0 [] (fun j => by simp)

/-- Python membership of a string value in a string-valued set model. -/
theorem pyMem_pstr_iff (s : String) (acc : List PVal)
    (hall : ∀ x ∈ acc, ∃ t, x = .pstr t) :
    pyMem (.pstr s) acc = true ↔ .pstr s ∈ acc := by
  unfold pyMem
  rw [List.any_eq_true]
  constructor
  · rintro ⟨x, hx, hpx⟩
    obtain ⟨t, rfl⟩ := hall x hx
    obtain rfl : s = t := by simpa [pyEq_pstr_pstr] using hpx
    exact hx
  · intro hmem
    exact ⟨.pstr s, hmem, by simp [pyEq_pstr_pstr]⟩

/-- Membership after a Python `set.add` of a string. -/
theorem pyAdd_pstr_mem (acc : List PVal) (s t : String)
    (hall : ∀ x ∈ acc, ∃ u, x = .pstr u) :
    .pstr s ∈ pyAdd acc (.pstr t) ↔ .pstr s ∈ acc ∨ s = t := by
  unfold pyAdd
  by_cases hm : pyMem (.pstr t) acc = true
  · rw [if_pos hm]
    have hmem := (pyMem_pstr_iff t acc hall).mp hm
    constructor
    · exact Or.inl
    · rintro (h | rfl)
      · exact h
      · exact hmem
  · rw [if_neg hm]
    simp [List.mem_append]

/-- `set.add` of a string keeps the all-strings invariant. -/
theorem pyAdd_pstr_all (acc : List PVal) (t : String)
    (hall : ∀ x ∈ acc, ∃ u, x = .pstr u) :
    ∀ x ∈ pyAdd acc (.pstr t), ∃ u, x = .pstr u := by
  intro x hx
  unfold pyAdd at hx
  split at hx
  · exact hall x hx
  · rcases List.mem_append.mp hx with h | h
    · exact hall x h
    · exact ⟨t, by simpa using h⟩

/-- `set.add` of a string keeps the no-duplicates invariant. -/
theorem pyAdd_pstr_nodup (acc : List PVal) (t : String)
    (hall : ∀ x ∈ acc, ∃ u, x = .pstr u) (hnd : acc.Nodup) :
    (pyAdd acc (.pstr t)).Nodup := by
  unfold pyAdd
  by_cases hm : pyMem (.pstr t) acc = true
  · rw [if_pos hm]; exact hnd
  · rw [if_neg hm]
    have hnm : .pstr t ∉ acc := fun hmem => hm ((pyMem_pstr_iff t acc hall).mpr hmem)
    simp [List.nodup_append, hnd, hnm]

/-- Everything the specification-side fold accumulates is a string. -/
theorem specFold_all_pstr (n : String) : ∀ (edges : List (String × String × String))
    (acc : List PVal), (∀ x ∈ acc, ∃ u, x = .pstr u) →
    ∀ x ∈ specFold n edges acc, ∃ u, x = .pstr u
  | [], acc, hall => hall
  | e :: erest, acc, hall => by
    rw [specFold]
    split
    · exact specFold_all_pstr n erest _ (pyAdd_pstr_all acc e.1 hall)
    · exact specFold_all_pstr n erest acc hall

/-- The specification-side fold returns a duplicate-free set. -/
theorem specFold_nodup (n : String) : ∀ (edges : List (String × String × String))
    (acc : List PVal), (∀ x ∈ acc, ∃ u, x = .pstr u) → acc.Nodup →
    (specFold n edges acc).Nodup
  | [], acc, _, hnd => hnd
  | e :: erest, acc, hall, hnd => by
    rw [specFold]
    split
    · exact specFold_nodup n erest _ (pyAdd_pstr_all acc e.1 hall)
        (pyAdd_pstr_nodup acc e.1 hall hnd)
    · exact specFold_nodup n erest acc hall hnd

/-- A string is in a string list iff the Python membership test succeeds. -/
theorem any_beq_iff (l : List String) (a : String) :
    l.any (fun p => a == p) = true ↔ a ∈ l := by
  rw [List.any_eq_true]
  constructor
  · rintro ⟨x, hx, hax⟩
    obtain rfl : a = x := by simpa using hax
    exact hx
  · intro h
    exact ⟨a, h, by simp⟩

/-- Membership in the specification-side fold: the accumulated strings
are exactly the starting ones plus the subjects of containment edges
pointing at `n`. -/
theorem specFold_mem (n : String) : ∀ (edges : List (String × String × String))
    (acc : List PVal), (∀ x ∈ acc, ∃ u, x = .pstr u) → ∀ s : String,
    (.pstr s ∈ specFold n edges acc ↔
      .pstr s ∈ acc ∨ ∃ e ∈ edges, e.1 = s ∧ e.2.2 = n ∧ e.2.1 ∈ containmentPredicateIDs)
  | [], acc, hall, s => by simp [specFold]
  | e :: erest, acc, hall, s => by
    rw [specFold]
    by_cases hc : (e.2.2 == n && containmentPredicateIDs.any (fun p => e.2.1 == p)) = true
    · rw [if_pos hc]
      obtain ⟨hobj, hpred⟩ := Bool.and_eq_true_iff.mp hc
      have hobj2 : e.2.2 = n := by simpa using hobj
      have hpred2 : e.2.1 ∈ containmentPredicateIDs := (any_beq_iff _ _).mp hpred
      rw [specFold_mem n erest _ (pyAdd_pstr_all acc e.1 hall) s,
        pyAdd_pstr_mem acc s e.1 hall]
      constructor
      · rintro ((h | rfl) | ⟨e2, he2, h1, h2, h3⟩)
        · exact Or.inl h
        · exact Or.inr ⟨e, by simp, rfl, hobj2, hpred2⟩
        · exact Or.inr ⟨e2, by simp [he2], h1, h2, h3⟩
      · rintro (h | ⟨e2, he2, h1, h2, h3⟩)
        · exact Or.inl (Or.inl h)
        · rcases List.mem_cons.mp he2 with rfl | hmem
          · exact Or.inl (Or.inr h1.symm)
          · exact Or.inr ⟨e2, hmem, h1, h2, h3⟩
    · rw [if_neg hc]
      rw [specFold_mem n erest acc hall s]
      constructor
      · rintro (h | ⟨e2, he2, h1, h2, h3⟩)
        · exact Or.inl h
        · exact Or.inr ⟨e2, by simp [he2], h1, h2, h3⟩
      · rintro (h | ⟨e2, he2, h1, h2, h3⟩)
        · exact Or.inl h
        · rcases List.mem_cons.mp he2 with rfl | hmem
          · exact absurd (by simp [h2, (any_beq_iff containmentPredicateIDs e2.2.1).mpr h3]
              : (e2.2.2 == n && containmentPredicateIDs.any (fun p => e2.2.1 == p)) = true) hc
          · exact Or.inr ⟨e2, hmem, h1, h2, h3⟩

/-- C3: on any synthetic ontology, `getChildrenForNode(n, recursive=False)`
returns exactly the deduplicated set of subjects of containment-predicate
edges whose object is `n`: every such edge contributes its subject, no
edge with a non-containment predicate (and no edge leaving `n`)
contributes anything, and the result has no duplicates. -/
theorem C3_direct_children (nodes : List (String × String))
    (edges : List (String × String × String)) (n : String) :
    getChildrenForNode 0 (some (mkOntology nodes edges))
        (flatListFromDict (mkOntology nodes edges) []) (.pstr n) false =
      some (.ok (specDirectChildren edges n)) ∧
    (∀ s : String, .pstr s ∈ specDirectChildren edges n ↔
      ∃ e ∈ edges, e.1 = s ∧ e.2.2 = n ∧ e.2.1 ∈ containmentPredicateIDs) ∧
    (specDirectChildren edges n).Nodup := by
  refine ⟨?_, fun s => ?_, ?_⟩
  · simp [getChildrenForNode, getChildrenDirect_mkOntology]
  · have h := specFold_mem n edges [] (by simp) s
    simpa [specDirectChildren] using h
  · exact specFold_nodup n edges [] (by simp) (by simp)

/-- Witness for C3 on the small ontology: the direct children of R are
CAT and E, CAT is a member, and the result is duplicate-free. -/
theorem C3_witness :
    getChildrenForNode 0 (some (mkOntology exNodes exEdges))
        (flatListFromDict (mkOntology exNodes exEdges) []) (.pstr "R") false =
      some (.ok [.pstr "CAT", .pstr "E"]) ∧
    .pstr "CAT" ∈ specDirectChildren exEdges "R" ∧
    (specDirectChildren exEdges "R").Nodup := by
  obtain ⟨h1, h2, h3⟩ := C3_direct_children exNodes exEdges "R"
  refine ⟨?_, ?_, h3⟩
  · rw [h1]
    rfl
  · exact (h2 "CAT").mpr
      ⟨("CAT", "is_a", "R"), by simp [exEdges], rfl, rfl, by simp [containmentPredicateIDs]⟩

/-! ### The shape of a successful `process` run -/

/-- A successful `processBody` run decomposes into its pipeline steps. -/
theorem processBody_ok_shape (fuel : Nat) (lj : Option PVal) (flat : List (List PVal))
    (out : PVal) (h : processBody fuel lj flat = some (.ok out)) :
    ∃ rootItem rootElem rootID childIDs cats,
      findValueInFlatList flat (.pstr rootNodeLabel) (some (.pstr "lbl")) = .ok rootItem ∧
      getJsonElementFromFlatElement lj rootItem 4 = .ok (some rootElem) ∧
      pyIndex rootElem (.pstr "id") = .ok rootID ∧
      getChildrenForNode fuel lj flat rootID false = some (.ok childIDs) ∧
      buildCategories fuel lj flat childIDs [] = some (.ok cats) ∧
      out = mkOutput cats := by
  unfold processBody at h
  split at h
  next err heq1 => exact absurd h (by simp)
  next rootItem heq1 =>
    split at h
    next err heq2 => exact absurd h (by simp)
    next heq2 => exact absurd h (by simp)
    next rootElem heq2 =>
      split at h
      next err heq3 => exact absurd h (by simp)
      next rootID heq3 =>
        split at h
        next heq4 => exact absurd h (by simp)
        next err heq4 => exact absurd h (by simp)
        next childIDs heq4 =>
          split at h
          next heq5 => exact absurd h (by simp)
          next err heq5 => exact absurd h (by simp)
          next cats heq5 =>
            have hout : out = mkOutput cats := by
              have := h.symm
              simpa using this
            exact ⟨rootItem, rootElem, rootID, childIDs, cats,
              heq1, heq2, heq3, heq4, heq5, hout⟩

/-- Every type record built by the inner loop of `process` either was in
the starting accumulator or is a well-shaped type whose label was looked
up from the node found by its id. -/
theorem buildTypeList_mem (lj : Option PVal) (flat : List (List PVal)) :
    ∀ (tids acc types : List PVal),
      buildTypeList lj flat tids acc = .ok types →
      ∀ t ∈ types, t ∈ acc ∨
        ∃ tid item nodeElem tlbl,
          findValueInFlatList flat tid (some (.pstr "id")) = .ok item ∧
          getJsonElementFromFlatElement lj item 4 = .ok (some nodeElem) ∧
          pyIndex nodeElem (.pstr "lbl") = .ok tlbl ∧
          t = mkType tlbl tid
  | [], acc, types, h, t, ht => by
    have hacc : types = acc := by simpa [buildTypeList] using h.symm
    subst hacc
    exact Or.inl ht
  | tid :: rest, acc, types, h, t, ht => by
    rw [buildTypeList] at h
    split at h
    next err heq1 => exact absurd h (by simp)
    next item heq1 =>
      split at h
      next err heq2 => exact absurd h (by simp)
      next heq2 => exact absurd h (by simp)
      next nodeElem heq2 =>
        split at h
        next err heq3 => exact absurd h (by simp)
        next tlbl heq3 =>
          rcases buildTypeList_mem lj flat rest (acc ++ [mkType tlbl tid]) types h t ht with
            hacc | hrec
          · rcases List.mem_append.mp hacc with hl | hr
            · exact Or.inl hl
            · have : t = mkType tlbl tid := by simpa using hr
              exact Or.inr ⟨tid, item, nodeElem, tlbl, heq1, heq2, heq3, this⟩
          · exact Or.inr hrec

/-- Every category record built by the outer loop of `process` either was
in the starting accumulator or is a well-shaped category of a child with
a nonempty recursive-descendant set. -/
theorem buildCategories_mem (fuel : Nat) (lj : Option PVal) (flat : List (List PVal)) :
    ∀ (ids acc cats : List PVal),
      buildCategories fuel lj flat ids acc = some (.ok cats) →
      ∀ cat ∈ cats, cat ∈ acc ∨
        ∃ id item nodeElem lbl tids types,
          findValueInFlatList flat id (some (.pstr "id")) = .ok item ∧
          getJsonElementFromFlatElement lj item 4 = .ok (some nodeElem) ∧
          pyIndex nodeElem (.pstr "lbl") = .ok lbl ∧
          getChildrenForNode fuel lj flat id true = some (.ok tids) ∧
          tids ≠ [] ∧
          buildTypeList lj flat tids [] = .ok types ∧
          cat = mkCategory lbl id types
  | [], acc, cats, h, cat, hcat => by
    have hacc : cats = acc := by simpa [buildCategories] using h.symm
    subst hacc
    exact Or.inl hcat
  | id :: rest, acc, cats, h, cat, hcat => by
    rw [buildCategories] at h
    split at h
    next err heq1 => exact absurd h (by simp)
    next item heq1 =>
      split at h
      next err heq2 => exact absurd h (by simp)
      next heq2 => exact absurd h (by simp)
      next nodeElem heq2 =>
        split at h
        next err heq3 => exact absurd h (by simp)
        next lbl heq3 =>
          split at h
          next heq4 => exact absurd h (by simp)
          next err heq4 => exact absurd h (by simp)
          next tids heq4 =>
            split at h
            next hlen =>
              exact buildCategories_mem fuel lj flat rest acc cats h cat hcat
            next hlen =>
              split at h
              next err heq5 => exact absurd h (by simp)
              next types heq5 =>
                have hne : tids ≠ [] := by
                  intro hnil
                  exact hlen (by simp [hnil])
                rcases buildCategories_mem fuel lj flat rest
                    (acc ++ [mkCategory lbl id types]) cats h cat hcat with hacc | hrec
                · rcases List.mem_append.mp hacc with hl | hr
                  · exact Or.inl hl
                  · have hc : cat = mkCategory lbl id types := by simpa using hr
                    exact Or.inr ⟨id, item, nodeElem, lbl, tids, types,
                      heq1, heq2, heq3, heq4, hne, heq5, hc⟩
                · exact Or.inr hrec

/-- C6: in any successful run, a node whose recursive-descendant set is
empty contributes no category: no entry of the output's category list has
it as CodeValue (in particular a childless direct child of the root is
skipped). -/
theorem C6_empty_descendants_no_category (fuel : Nat) (doc out c : PVal)
    (hrun : processBody fuel (some doc) (flatListFromDict doc []) = some (.ok out))
    (hempty : getChildrenForNode fuel (some doc) (flatListFromDict doc []) c true =
      some (.ok [])) :
    ∀ cats, out = mkOutput cats → ∀ cat ∈ cats,
      pyIndex cat (.pstr "CodeValue") ≠ .ok c := by
  obtain ⟨rI, rE, rID, childIDs, cats0, h1, h2, h3, h4, h5, hout⟩ :=
    processBody_ok_shape fuel (some doc) (flatListFromDict doc []) out hrun
  intro cats hcats cat hcat
  have hcats0 : cats0 = cats := by
    rw [hout] at hcats
    simpa [mkOutput] using hcats
  subst hcats0
  rcases buildCategories_mem fuel (some doc) (flatListFromDict doc []) childIDs [] cats0
      h5 cat hcat with hacc | ⟨id, item, nE, lbl, tids, types, hf, hg, hp, hch, hne, hb, hceq⟩
  · simp at hacc
  · intro hcv
    rw [hceq] at hcv
    have hid : pyIndex (mkCategory lbl id types) (.pstr "CodeValue") = .ok id := rfl
    rw [hid] at hcv
    obtain rfl : id = c := by simpa using hcv
    rw [hch] at hempty
    have : tids = [] := by simpa using hempty
    exact hne this

/-- Witness for C6: on the small ontology the childless direct child E of
the root produces no category — the single category has CodeValue CAT. -/
theorem C6_witness :
    processBody 5 (some exDoc) (flatListFromDict exDoc []) = some (.ok exOut) ∧
    getChildrenForNode 5 (some exDoc) (flatListFromDict exDoc []) (.pstr "E") true =
      some (.ok []) ∧
    pyIndex (mkCategory (.pstr "catA") (.pstr "CAT") [mkType (.pstr "leafA") (.pstr "LEAF")])
      (.pstr "CodeValue") ≠ .ok (.pstr "E") := by
  refine ⟨rfl, rfl, ?_⟩
  exact C6_empty_descendants_no_category 5 exDoc exOut (.pstr "E") rfl rfl
    [mkCategory (.pstr "catA") (.pstr "CAT") [mkType (.pstr "leafA") (.pstr "LEAF")]] rfl
    (mkCategory (.pstr "catA") (.pstr "CAT") [mkType (.pstr "leafA") (.pstr "LEAF")])
    (by simp)

/-- C8: every successful run assembles the output document with the
context name equal to the root label, the fixed schema URI, and categories
each carrying the looked-up label as CodeMeaning, the fixed coding scheme,
the child node id as CodeValue, showAnatomy false, and types each carrying
the looked-up label, the fixed coding scheme, the descendant node id, and
a three-component integer RGB value within 0–255. -/
theorem C8_output_shape (fuel : Nat) (doc out : PVal)
    (hrun : processBody fuel (some doc) (flatListFromDict doc []) = some (.ok out)) :
    ∃ cats : List PVal,
      out = .pdict [("SegmentationCategoryTypeContextName", .pstr rootNodeLabel),
                    ("@schema", .pstr schemaURI),
                    ("SegmentationCodes", .pdict [("Category", .plist cats)])] ∧
      ∀ cat ∈ cats, ∃ (lbl id : PVal) (types : List PVal),
        cat = .pdict [("CodeMeaning", lbl), ("CodingSchemeDesignator", .pstr "Uberon"),
                      ("CodeValue", id), ("showAnatomy", .pstr "false"),
                      ("Type", .plist types)] ∧
        (∃ item nodeElem,
          findValueInFlatList (flatListFromDict doc []) id (some (.pstr "id")) = .ok item ∧
          getJsonElementFromFlatElement (some doc) item 4 = .ok (some nodeElem) ∧
          pyIndex nodeElem (.pstr "lbl") = .ok lbl) ∧
        ∀ t ∈ types, ∃ (tlbl tid : PVal) (rgb : List PVal),
          t = .pdict [("CodeMeaning", tlbl), ("CodingSchemeDesignator", .pstr "Uberon"),
                      ("CodeValue", tid), ("recommendedDisplayRGBValue", .plist rgb)] ∧
          rgb.length = 3 ∧
          (∀ x ∈ rgb, ∃ m : Int, x = .pint m ∧ 0 ≤ m ∧ m ≤ 255) ∧
          (∃ titem tnodeElem,
            findValueInFlatList (flatListFromDict doc []) tid (some (.pstr "id")) =
              .ok titem ∧
            getJsonElementFromFlatElement (some doc) titem 4 = .ok (some tnodeElem) ∧
            pyIndex tnodeElem (.pstr "lbl") = .ok tlbl) := by
  obtain ⟨rI, rE, rID, childIDs, cats, h1, h2, h3, h4, h5, hout⟩ :=
    processBody_ok_shape fuel (some doc) (flatListFromDict doc []) out hrun
  refine ⟨cats, hout, ?_⟩
  intro cat hcat
  rcases buildCategories_mem fuel (some doc) (flatListFromDict doc []) childIDs [] cats
      h5 cat hcat with hacc | ⟨id, item, nE, lbl, tids, types, hf, hg, hp, hch, hne, hb, hceq⟩
  · simp at hacc
  · refine ⟨lbl, id, types, hceq, ⟨item, nE, hf, hg, hp⟩, ?_⟩
    intro t ht
    rcases buildTypeList_mem (some doc) (flatListFromDict doc []) tids [] types hb t ht with
      htacc | ⟨tid, titem, tnE, tlbl, htf, htg, htp, hteq⟩
    · simp at htacc
    · refine ⟨tlbl, tid, [.pint 128, .pint 128, .pint 128], hteq, rfl, ?_,
        ⟨titem, tnE, htf, htg, htp⟩⟩
      intro x hx
      have hx2 : x = .pint 128 := by simpa using hx
      exact ⟨128, hx2, by omega, by omega⟩

/-- Witness for C8: the shape property holds of the successful run on the
small ontology. -/
theorem C8_witness :
    processBody 5 (some exDoc) (flatListFromDict exDoc []) = some (.ok exOut) ∧
    ∃ cats : List PVal,
      exOut = .pdict [("SegmentationCategoryTypeContextName", .pstr rootNodeLabel),
                      ("@schema", .pstr schemaURI),
                      ("SegmentationCodes", .pdict [("Category", .plist cats)])] :=
  ⟨rfl, by
    obtain ⟨cats, hshape, _⟩ := C8_output_shape 5 exDoc exOut rfl
    exact ⟨cats, hshape⟩⟩

/-! ### Round-trip: last entries of flat elements are the document's
scalar leaves, and replaying a flat element recovers its leaf -/

/-- The last entry of a two-entry extension. -/
theorem getLast?_append_double (l : List PVal) (a b : PVal) :
    (l ++ [a, b]).getLast? = some b := by
  rw [show l ++ [a, b] = (l ++ [a]) ++ [b] by simp]
  exact List.getLast?_concat _

mutual
/-- On faithful positions, the last entries of the flattening are exactly
the scalar leaves, in traversal order. -/
theorem flatLast_top : ∀ (d : PVal) (prev : List PVal), flatFaithful d = true →
    (flatListFromDict d prev).map List.getLast? = (leaves d).map some
  | .pstr s, prev, _ => by simp [flatListFromDict, leaves, List.getLast?_concat]
  | .pint n, prev, _ => by simp [flatListFromDict, leaves, List.getLast?_concat]
  | .pbool b, prev, _ => by simp [flatListFromDict, leaves, List.getLast?_concat]
  | .pnull, prev, _ => by simp [flatListFromDict, leaves, List.getLast?_concat]
  | .plist xs, prev, h => by simp [flatFaithful] at h
  | .pdict items, prev, h => by
    have h2 : faithfulItems items = true := by
      have h3 : keysNodup items = true ∧ faithfulItems items = true := by
        simpa [flatFaithful, Bool.and_eq_true] using h
      exact h3.2
    show (flatDictItems items prev).map List.getLast? = (leavesD items).map some
    exact flatLast_items items prev h2

/-- Dict-items case of `flatLast_top`. -/
theorem flatLast_items : ∀ (items : List (String × PVal)) (prev : List PVal),
    faithfulItems items = true →
    (flatDictItems items prev).map List.getLast? = (leavesD items).map some
  | [], _, _ => by simp [flatDictItems, leavesD]
  | (key, .pdict inner) :: rest, prev, h => by
    obtain ⟨hv, hrest⟩ : faithfulValue (.pdict inner) = true ∧ faithfulItems rest = true := by
      simpa [faithfulItems, Bool.and_eq_true] using h
    have hinner : faithfulItems inner = true := by
      have h3 : keysNodup inner = true ∧ faithfulItems inner = true := by
        simpa [faithfulValue, Bool.and_eq_true] using hv
      exact h3.2
    have h4 := flatLast_items inner (prev ++ [PVal.pstr key]) hinner
    have h5 := flatLast_items rest prev hrest
    show (flatDictItems inner (prev ++ [.pstr key]) ++ flatDictItems rest prev).map
        List.getLast? = (leavesD inner ++ leavesD rest).map some
    rw [List.map_append, List.map_append, h4, h5]
  | (key, .plist elems) :: rest, prev, h => by
    obtain ⟨hv, hrest⟩ : faithfulValue (.plist elems) = true ∧ faithfulItems rest = true := by
      simpa [faithfulItems, Bool.and_eq_true] using h
    have helems : faithfulElems elems = true := hv
    have h4 := flatLast_elems elems key 0 prev helems
    have h5 := flatLast_items rest prev hrest
    show (flatListElems elems key 0 prev ++ flatDictItems rest prev).map
        List.getLast? = (leavesL elems ++ leavesD rest).map some
    rw [List.map_append, List.map_append, h4, h5]
  | (key, .pstr s) :: rest, prev, h => by
    have hrest : faithfulItems rest = true := by
      have h3 : faithfulValue (.pstr s) = true ∧ faithfulItems rest = true := by
        simpa [faithfulItems, Bool.and_eq_true] using h
      exact h3.2
    show ((prev ++ [.pstr key, .pstr s]) :: flatDictItems rest prev).map
        List.getLast? = (.pstr s :: leavesD rest).map some
    have h4 := flatLast_items rest prev hrest
    rw [List.map_cons, List.map_cons, getLast?_append_double, h4]
  | (key, .pint n) :: rest, prev, h => by
    have hrest : faithfulItems rest = true := by
      have h3 : faithfulValue (.pint n) = true ∧ faithfulItems rest = true := by
        simpa [faithfulItems, Bool.and_eq_true] using h
      exact h3.2
    show ((prev ++ [.pstr key, .pint n]) :: flatDictItems rest prev).map
        List.getLast? = (.pint n :: leavesD rest).map some
    have h4 := flatLast_items rest prev hrest
    rw [List.map_cons, List.map_cons, getLast?_append_double, h4]
  | (key, .pbool b) :: rest, prev, h => by
    have hrest : faithfulItems rest = true := by
      have h3 : faithfulValue (.pbool b) = true ∧ faithfulItems rest = true := by
        simpa [faithfulItems, Bool.and_eq_true] using h
      exact h3.2
    show ((prev ++ [.pstr key, .pbool b]) :: flatDictItems rest prev).map
        List.getLast? = (.pbool b :: leavesD rest).map some
    have h4 := flatLast_items rest prev hrest
    rw [List.map_cons, List.map_cons, getLast?_append_double, h4]
  | (key, .pnull) :: rest, prev, h => by
    have hrest : faithfulItems rest = true := by
      have h3 : faithfulValue .pnull = true ∧ faithfulItems rest = true := by
        simpa [faithfulItems, Bool.and_eq_true] using h
      exact h3.2
    show ((prev ++ [.pstr key, .pnull]) :: flatDictItems rest prev).map
        List.getLast? = (.pnull :: leavesD rest).map some
    have h4 := flatLast_items rest prev hrest
    rw [List.map_cons, List.map_cons, getLast?_append_double, h4]

/-- List-elements case of `flatLast_top`. -/
theorem flatLast_elems : ∀ (elems : List PVal) (key : String) (k : Nat) (prev : List PVal),
    faithfulElems elems = true →
    (flatListElems elems key k prev).map List.getLast? = (leavesL elems).map some
  | [], _, _, _, _ => by simp [flatListElems, leavesL]
  | v :: rest, key, k, prev, h => by
    obtain ⟨hv, hrest⟩ : flatFaithful v = true ∧ faithfulElems rest = true := by
      simpa [faithfulElems, Bool.and_eq_true] using h
    have h4 := flatLast_top v (prev ++ [PVal.pstr key, PVal.plist [PVal.pint (k : Int)]]) hv
    have h5 := flatLast_elems rest key (k + 1) prev hrest
    show (flatListFromDict v (prev ++ [.pstr key, .plist [.pint (k : Int)]]) ++
        flatListElems rest key (k + 1) prev).map List.getLast? =
      (leaves v ++ leavesL rest).map some
    rw [List.map_append, List.map_append, h4, h5]
end

/-- In a dict with pairwise-distinct keys, every item is found by its own
key. -/
theorem lookupStr_self : ∀ (items : List (String × PVal)), keysNodup items = true →
    ∀ kv ∈ items, lookupStr kv.1 items = some kv.2
  | [], _, kv, hkv => by simp at hkv
  | (k, v) :: rest, h, kv, hkv => by
    rw [keysNodup] at h
    obtain ⟨hnot, hrest⟩ := Bool.and_eq_true_iff.mp h
    have hany : rest.any (fun kv2 => kv2.1 == k) = false := by simpa using hnot
    rcases List.mem_cons.mp hkv with rfl | hmem
    · simp [lookupStr]
    · have hne : (kv.1 == k) = false := by
        rw [List.any_eq_false] at hany
        simpa using hany kv hmem
      have hne2 : (k == kv.1) = false := by
        rw [beq_eq_false_iff_ne] at hne ⊢
        exact fun hc => hne hc.symm
      rw [lookupStr, hne2]
      exact lookupStr_self rest hrest kv hmem

/-- Replaying an extended segment list continues from the value reached by
the prefix. -/
theorem replaySegs_append (p : List PVal) : ∀ (cur c : PVal) (q : List PVal),
    replaySegs cur p = .ok c → replaySegs cur (p ++ q) = replaySegs c q := by
  induction p with
  | nil =>
    intro cur c q h
    obtain rfl : cur = c := by simpa [replaySegs] using h
    rfl
  | cons e rest ih =>
    intro cur c q h
    rw [replaySegs] at h
    split at h
    next err heq => exact absurd h (by simp)
    next e2 heq =>
      split at h
      next err heq2 => exact absurd h (by simp)
      next nxt heq2 =>
        show replaySegs cur (e :: (rest ++ q)) = _
        rw [replaySegs, heq]
        show (match pyIndex cur e2 with
          | Except.error err => Except.error err
          | Except.ok nxt2 => replaySegs nxt2 (rest ++ q)) = replaySegs c q
        rw [heq2]
        exact ih nxt c q h

/-- Replaying one more key segment looks the key up in the reached dict. -/
theorem replaySegs_snoc_key (root : PVal) (p : List PVal) (items : List (String × PVal))
    (key : String) (v : PVal) (hroot : replaySegs root p = .ok (.pdict items))
    (hlook : lookupStr key items = some v) :
    replaySegs root (p ++ [.pstr key]) = .ok v := by
  rw [replaySegs_append p root (.pdict items) [.pstr key] hroot]
  simp [replaySegs, unwrapSeg, pyIndex, hlook]

/-- Replaying one more wrapped-index segment indexes the reached list. -/
theorem replaySegs_snoc_idx (root : PVal) (p : List PVal) (xs : List PVal) (k : Nat)
    (v : PVal) (hroot : replaySegs root p = .ok (.plist xs)) (hget : xs.get? k = some v) :
    replaySegs root (p ++ [.plist [.pint (k : Int)]]) = .ok v := by
  rw [replaySegs_append p root (.plist xs) _ hroot]
  have hnn : ¬ ((k : Int) < 0) := by omega
  rw [List.get?_eq_getElem?] at hget
  simp [replaySegs, unwrapSeg, pyIndex, pyListGet, hnn, Int.toNat_natCast, hget]

/-- Walking a full flat element whose segments replay to its leaf, with
depth equal to the segment count, returns the leaf. -/
theorem getJsonWalk_full : ∀ (segs : List PVal) (leafV : PVal) (cd : Nat) (cur : PVal),
    replaySegs cur segs = .ok leafV → (∃ w, unwrapSeg leafV = .ok w) →
    getJsonWalk (segs ++ [leafV]) (cd + segs.length) cd cur = .ok leafV
  | [], leafV, cd, cur, hrep, hw => by
    obtain ⟨w, hw2⟩ := hw
    obtain rfl : cur = leafV := by simpa [replaySegs] using hrep
    simp [getJsonWalk, hw2]
  | e :: rest, leafV, cd, cur, hrep, hw => by
    rw [replaySegs] at hrep
    split at hrep
    next err heq => exact absurd hrep (by simp)
    next e2 heq =>
      split at hrep
      next err heq2 => exact absurd hrep (by simp)
      next nxt heq2 =>
        have hne : ¬ (cd = cd + (rest.length + 1)) := by omega
        have harith : cd + (rest.length + 1) = (cd + 1) + rest.length := by omega
        show getJsonWalk (e :: (rest ++ [leafV])) (cd + (rest.length + 1)) cd cur =
          .ok leafV
        rw [getJsonWalk, heq]
        show (if cd = cd + (rest.length + 1) then Except.ok cur
          else match pyIndex cur e2 with
            | .error err => .error err
            | .ok nxt2 => getJsonWalk (rest ++ [leafV]) (cd + (rest.length + 1)) (cd + 1) nxt2)
          = .ok leafV
        rw [if_neg hne, heq2, harith]
        exact getJsonWalk_full rest leafV (cd + 1) nxt hrep hw

mutual
/-- Every flat element produced at a faithful position reached by `prev`
splits into its segments and its leaf, with the segments replaying to the
leaf from the document root. -/
theorem flatReplay_top : ∀ (cur root : PVal) (prev : List PVal),
    flatFaithful cur = true → replaySegs root prev = .ok cur →
    ∀ e ∈ flatListFromDict cur prev, PathSpec root e
  | .pstr s, root, prev, _, hrep => fun e he => by
    have he2 : e = prev ++ [.pstr s] := by simpa [flatListFromDict] using he
    exact ⟨prev, .pstr s, he2, hrep, ⟨.pstr s, rfl⟩⟩
  | .pint n, root, prev, _, hrep => fun e he => by
    have he2 : e = prev ++ [.pint n] := by simpa [flatListFromDict] using he
    exact ⟨prev, .pint n, he2, hrep, ⟨.pint n, rfl⟩⟩
  | .pbool b, root, prev, _, hrep => fun e he => by
    have he2 : e = prev ++ [.pbool b] := by simpa [flatListFromDict] using he
    exact ⟨prev, .pbool b, he2, hrep, ⟨.pbool b, rfl⟩⟩
  | .pnull, root, prev, _, hrep => fun e he => by
    have he2 : e = prev ++ [.pnull] := by simpa [flatListFromDict] using he
    exact ⟨prev, .pnull, he2, hrep, ⟨.pnull, rfl⟩⟩
  | .plist xs, root, prev, h, hrep => by simp [flatFaithful] at h
  | .pdict items, root, prev, h, hrep => by
    obtain ⟨hnd, hitems⟩ : keysNodup items = true ∧ faithfulItems items = true := by
      simpa [flatFaithful, Bool.and_eq_true] using h
    exact flatReplay_items items items root prev hitems hrep (lookupStr_self items hnd)

/-- Dict-items case of `flatReplay_top`: `itemsAll` is the dict reached by
`prev`, and every remaining item is found by its key in it. -/
theorem flatReplay_items : ∀ (items itemsAll : List (String × PVal)) (root : PVal)
    (prev : List PVal), faithfulItems items = true →
    replaySegs root prev = .ok (.pdict itemsAll) →
    (∀ kv ∈ items, lookupStr kv.1 itemsAll = some kv.2) →
    ∀ e ∈ flatDictItems items prev, PathSpec root e
  | [], _, _, _, _, _, _ => by simp [flatDictItems]
  | (key, .pdict inner) :: rest, itemsAll, root, prev, h, hrep, hlook => by
    intro e he
    simp only [flatDictItems] at he
    obtain ⟨hv, hrest⟩ : faithfulValue (.pdict inner) = true ∧ faithfulItems rest = true := by
      simpa [faithfulItems, Bool.and_eq_true] using h
    obtain ⟨hnd, hinner⟩ : keysNodup inner = true ∧ faithfulItems inner = true := by
      simpa [faithfulValue, Bool.and_eq_true] using hv
    rcases List.mem_append.mp he with h1 | h2
    · have hrep2 : replaySegs root (prev ++ [.pstr key]) = .ok (.pdict inner) :=
        replaySegs_snoc_key root prev itemsAll key (.pdict inner) hrep
          (hlook (key, .pdict inner) (by simp))
      exact flatReplay_items inner inner root (prev ++ [PVal.pstr key]) hinner hrep2
        (lookupStr_self inner hnd) e h1
    · exact flatReplay_items rest itemsAll root prev hrest hrep
        (fun kv hkv => hlook kv (by simp [hkv])) e h2
  | (key, .plist elems) :: rest, itemsAll, root, prev, h, hrep, hlook => by
    intro e he
    simp only [flatDictItems] at he
    obtain ⟨hv, hrest⟩ : faithfulValue (.plist elems) = true ∧ faithfulItems rest = true := by
      simpa [faithfulItems, Bool.and_eq_true] using h
    have helems : faithfulElems elems = true := hv
    rcases List.mem_append.mp he with h1 | h2
    · have hrep2 : replaySegs root (prev ++ [.pstr key]) = .ok (.plist elems) :=
        replaySegs_snoc_key root prev itemsAll key (.plist elems) hrep
          (hlook (key, .plist elems) (by simp))
      exact flatReplay_elems elems key 0 prev elems root helems hrep2 (fun j => by simp) e h1
    · exact flatReplay_items rest itemsAll root prev hrest hrep
        (fun kv hkv => hlook kv (by simp [hkv])) e h2
  | (key, .pstr s) :: rest, itemsAll, root, prev, h, hrep, hlook => by
    intro e he
    have hrest : faithfulItems rest = true := by
      have h3 : faithfulValue (.pstr s) = true ∧ faithfulItems rest = true := by
        simpa [faithfulItems, Bool.and_eq_true] using h
      exact h3.2
    rcases List.mem_cons.mp he with rfl | h2
    · refine ⟨prev ++ [.pstr key], .pstr s, by simp, ?_, ⟨.pstr s, rfl⟩⟩
      exact replaySegs_snoc_key root prev itemsAll key (.pstr s) hrep
        (hlook (key, .pstr s) (by simp))
    · exact flatReplay_items rest itemsAll root prev hrest hrep
        (fun kv hkv => hlook kv (by simp [hkv])) e h2
  | (key, .pint n) :: rest, itemsAll, root, prev, h, hrep, hlook => by
    intro e he
    have hrest : faithfulItems rest = true := by
      have h3 : faithfulValue (.pint n) = true ∧ faithfulItems rest = true := by
        simpa [faithfulItems, Bool.and_eq_true] using h
      exact h3.2
    rcases List.mem_cons.mp he with rfl | h2
    · refine ⟨prev ++ [.pstr key], .pint n, by simp, ?_, ⟨.pint n, rfl⟩⟩
      exact replaySegs_snoc_key root prev itemsAll key (.pint n) hrep
        (hlook (key, .pint n) (by simp))
    · exact flatReplay_items rest itemsAll root prev hrest hrep
        (fun kv hkv => hlook kv (by simp [hkv])) e h2
  | (key, .pbool b) :: rest, itemsAll, root, prev, h, hrep, hlook => by
    intro e he
    have hrest : faithfulItems rest = true := by
      have h3 : faithfulValue (.pbool b) = true ∧ faithfulItems rest = true := by
        simpa [faithfulItems, Bool.and_eq_true] using h
      exact h3.2
    rcases List.mem_cons.mp he with rfl | h2
    · refine ⟨prev ++ [.pstr key], .pbool b, by simp, ?_, ⟨.pbool b, rfl⟩⟩
      exact replaySegs_snoc_key root prev itemsAll key (.pbool b) hrep
        (hlook (key, .pbool b) (by simp))
    · exact flatReplay_items rest itemsAll root prev hrest hrep
        (fun kv hkv => hlook kv (by simp [hkv])) e h2
  | (key, .pnull) :: rest, itemsAll, root, prev, h, hrep, hlook => by
    intro e he
    have hrest : faithfulItems rest = true := by
      have h3 : faithfulValue PVal.pnull = true ∧ faithfulItems rest = true := by
        simpa [faithfulItems, Bool.and_eq_true] using h
      exact h3.2
    rcases List.mem_cons.mp he with rfl | h2
    · refine ⟨prev ++ [.pstr key], .pnull, by simp, ?_, ⟨.pnull, rfl⟩⟩
      exact replaySegs_snoc_key root prev itemsAll key .pnull hrep
        (hlook (key, .pnull) (by simp))
    · exact flatReplay_items rest itemsAll root prev hrest hrep
        (fun kv hkv => hlook kv (by simp [hkv])) e h2

/-- List-elements case of `flatReplay_top`: `elemsAll` is the list reached
by the key segment, and the counter addresses the remaining elements. -/
theorem flatReplay_elems : ∀ (elems : List PVal) (key : String) (k : Nat) (prev : List PVal)
    (elemsAll : List PVal) (root : PVal), faithfulElems elems = true →
    replaySegs root (prev ++ [.pstr key]) = .ok (.plist elemsAll) →
    (∀ j, elemsAll.get? (k + j) = elems.get? j) →
    ∀ e ∈ flatListElems elems key k prev, PathSpec root e
  | [], _, _, _, _, _, _, _, _ => by simp [flatListElems]
  | v :: rest, key, k, prev, elemsAll, root, h, hrep, hsuf => by
    intro e he
    simp only [flatListElems] at he
    obtain ⟨hv, hrest⟩ : flatFaithful v = true ∧ faithfulElems rest = true := by
      simpa [faithfulElems, Bool.and_eq_true] using h
    rcases List.mem_append.mp he with h1 | h2
    · have hget : elemsAll.get? k = some v := by simpa using hsuf 0
      have hrep2 : replaySegs root ((prev ++ [.pstr key]) ++ [.plist [.pint (k : Int)]]) =
          .ok v :=
        replaySegs_snoc_idx root (prev ++ [PVal.pstr key]) elemsAll k v hrep hget
      have hrep3 : replaySegs root (prev ++ [.pstr key, .plist [.pint (k : Int)]]) =
          .ok v := by
        simpa using hrep2
      exact flatReplay_top v root (prev ++ [PVal.pstr key, PVal.plist [PVal.pint (k : Int)]])
        hv hrep3 e h1
    · have hsuf2 : ∀ j, elemsAll.get? ((k + 1) + j) = rest.get? j := by
        intro j
        have h1j := hsuf (j + 1)
        rw [List.get?_cons_succ] at h1j
        have harith : k + (j + 1) = (k + 1) + j := by omega
        rwa [harith] at h1j
      exact flatReplay_elems rest key (k + 1) prev elemsAll root hrest hrep hsuf2 e h2
end

/-- C2 (amended): on documents in which no array sits directly inside an
array, the top level is not an array, and object keys are unique (as
`json.loads` guarantees), flattening is leaf-complete — the last entries
of the flat elements are exactly the scalar leaves, each exactly once and
in traversal order — and replaying each flat element at depth equal to its
segment count (its length minus one) recovers exactly that leaf. -/
theorem C2_roundtrip (d : PVal) (h : flatFaithful d = true) :
    ((flatListFromDict d []).map List.getLast? = (leaves d).map some) ∧
    (∀ e ∈ flatListFromDict d [], ∃ v, e.getLast? = some v ∧
      getJsonElementFromFlatElement (some d) e (e.length - 1) = .ok (some v)) := by
  refine ⟨flatLast_top d [] h, ?_⟩
  intro e he
  obtain ⟨segs, leafV, rfl, hrep, hw⟩ := flatReplay_top d d [] h rfl e he
  refine ⟨leafV, List.getLast?_concat _, ?_⟩
  have hwalk := getJsonWalk_full segs leafV 0 d hrep hw
  have hz : (0 : Nat) + segs.length = segs.length := by omega
  rw [hz] at hwalk
  have hlen : (segs ++ [leafV]).length - 1 = segs.length := by simp
  rw [getJsonElementFromFlatElement, hlen, hwalk]

/-- C2 (counterexample): the scalar leaves 1 and 2 of the nested-array
document appear in no flat element — its only flat element carries the
whole inner array as its final entry — and replaying even a one-leaf
document's element at the source's default full depth raises TypeError
instead of recovering the leaf. -/
theorem C2_counterexample :
    flatListFromDict nestedArrayDoc [] =
      [[.pstr "a", .plist [.pint 0], .plist [.pint 1, .pint 2]]] ∧
    leaves nestedArrayDoc = [.pint 1, .pint 2] ∧
    getJsonElementFromFlatElement (some oneLeafDoc) [.pstr "a", .pint 1] 99999 =
      .error .typeError :=
  ⟨rfl, rfl, rfl⟩

/-- Witness for the amended C2 on the small ontology document. -/
theorem C2_witness :
    flatFaithful exDoc = true ∧
    (flatListFromDict exDoc []).map List.getLast? = (leaves exDoc).map some :=
  ⟨rfl, (C2_roundtrip exDoc rfl).1⟩

end UberonImporter
